import Mathlib

/-!
# Threaded bucket sort (bucketsort-threaded.cpp)

A shallow embedding of the sorting engine of `bucketsort-threaded.cpp` and
machine-checked statements about it.

Modelling conventions.

* A C `int` array is a `List Int`; `arr[i]` is `arr.getD i 0` and a store is
  `List.set`.  Index arithmetic inside the sorter is done in `Int`/`Nat` (array
  lengths are assumed to fit in an `int`).  The `int` sum
  `start + bucketsPerThread` of the group loop is checked: beyond `INT_MAX` it
  is a signed overflow and the outcome is `Outcome.undefined`.  Element values
  are integers that the theorems require to lie in `[INT_MIN, INT_MAX]`.
* The `long` arithmetic on `min`/`max` in `bucketSort` is two's complement on
  64 bits: every result goes through `wrapLong`.
* The unqualified call `abs(...)` of `bucketSort` is the C function
  `int abs(int)`: it is the only `abs` that the headers included by the file
  declare at global scope (GNU libstdc++), so the `long` argument is first
  converted to `int` (`wrapInt`).  `abs(INT_MIN)` has no defined value; the
  model gives it the two's complement result `INT_MIN` and `bucketIndex`
  reports `Outcome.undefined` for a negative numerator or a denominator that is
  not positive (division by zero, a negative or infinite `double` converted to
  `size_t`).
* `double` arithmetic is IEEE-754 binary64 with round-to-nearest-even: a value
  is a pair `man * 2 ^ exp`, and each conversion, division and product rounds
  the exact rational result to 53 significant bits.  Only the exponent range is
  not modelled (all magnitudes that occur lie between `2 ^ (-32)` and `2 ^ 64`).
* `std::make_heap` followed by `std::sort_heap` is modelled by its library
  contract: the range ends up in ascending order.
* The worker tasks started by `std::async` work on pairwise disjoint bucket
  ranges and are joined in submission order; they are run one after the other
  in that order.  `processorCount` is the value of
  `std::thread::hardware_concurrency()`.
* A loop or recursion whose termination is not evident from its shape takes a
  `fuel` argument and reports `Outcome.outOfFuel` when it is used up.
-/

namespace BucketSortThreaded

/-! ## Results of running a piece of code -/

/-- What a call can do: return a value, throw at `new[]`, touch a bucket outside
the bucket array, still be running when the fuel is exhausted, or evaluate an
expression to which C++ gives no meaning (signed overflow, `abs(INT_MIN)`, a
`double` outside the range of `size_t`). -/
inductive Outcome (α : Type) where
  | returns (a : α)
  | badArrayNewLength
  | outOfBounds
  | outOfFuel
  | undefined
deriving DecidableEq, Repr

/-- Sequencing of two computations. -/
def Outcome.bind {α β : Type} (x : Outcome α) (f : α → Outcome β) : Outcome β :=
  match x with
  | .returns a => f a
  | .badArrayNewLength => .badArrayNewLength
  | .outOfBounds => .outOfBounds
  | .outOfFuel => .outOfFuel
  | .undefined => .undefined

/-! ## binary64 arithmetic on non-negative values -/

/-- A non-negative binary64 value `man * 2 ^ exp`. -/
structure Dbl where
  man : Nat
  exp : Int
deriving DecidableEq, Repr

/-- The integer nearest to `n / d`, ties going to the even neighbour. -/
def roundHalfEven (n d : Nat) : Nat :=
  let q := n / d
  let r := n % d
  if 2 * r < d then q else if d < 2 * r then q + 1 else if q % 2 = 0 then q else q + 1

/-- Position of the leading bit: `log2Fuel n n = ⌊log₂ n⌋` for `n ≥ 1`. -/
def log2Fuel : Nat → Nat → Nat
  | 0, _ => 0
  | fuel + 1, n => if n < 2 then 0 else log2Fuel fuel (n / 2) + 1

/-- The exponent `e` with `2 ^ e ≤ n / d < 2 ^ (e + 1)`, for positive `n`, `d`. -/
def floorLog2 (n d : Nat) : Int :=
  let k : Int := (log2Fuel n n : Int) - (log2Fuel d d : Int)
  if d * 2 ^ k.toNat ≤ n * 2 ^ (-k).toNat then k else k - 1

/-- The binary64 value nearest to the rational `n / d` (53-bit significand,
round to nearest, ties to even). -/
def round53 (n d : Nat) : Dbl :=
  if n = 0 then ⟨0, 0⟩ else
  let s : Int := 52 - floorLog2 n d
  ⟨roundHalfEven (n * 2 ^ s.toNat) (d * 2 ^ (-s).toNat), -s⟩

/-- Conversion of a non-negative integer to `double`. -/
def Dbl.ofNat (n : Nat) : Dbl := round53 n 1

/-- The quotient `x / y` in `double`. -/
def Dbl.div (x y : Dbl) : Dbl :=
  let k : Int := x.exp - y.exp
  round53 (x.man * 2 ^ k.toNat) (y.man * 2 ^ (-k).toNat)

/-- The product `x * y` in `double`. -/
def Dbl.mul (x y : Dbl) : Dbl :=
  let r := round53 (x.man * y.man) 1
  ⟨r.man, r.exp + x.exp + y.exp⟩

/-- Conversion of a `double` to `size_t`: the fraction is discarded. -/
def Dbl.toNat (x : Dbl) : Nat := x.man * 2 ^ x.exp.toNat / 2 ^ (-x.exp).toNat

/-! ## Constants of the program -/

def INT_MIN : Int := -2147483648

def INT_MAX : Int := 2147483647

/-- The line `static const int arrSize = 250000000;`. -/
def arrSize : Nat := 250000000

/-- The line `static const int numBuckets = 0.02 * arrSize;`: the product is
formed in `double` and truncated. -/
def numBuckets : Nat := Dbl.toNat (Dbl.mul (round53 2 100) (Dbl.ofNat arrSize))

/-- The line `static const int elementsPerBucket = arrSize / numBuckets;`. -/
def elementsPerBucket : Nat := arrSize / numBuckets

def insertionSortSize : Int := 16

def maxDepth : Int := 55

/-! ## The hybrid sorter -/

/-- The call `std::swap(arr[i], arr[j])`. -/
def swap (arr : List Int) (i j : Nat) : List Int :=
  (arr.set i (arr.getD j 0)).set j (arr.getD i 0)

/-- Inner loop of `insertionSort`, entered with loop variable `j`:
`for (j = i; j > 0 && arr[j - 1] > arr[j]; --j) swap(arr[j], arr[j - 1])`. -/
def insertionSortInner (arr : List Int) : Nat → List Int
  | 0 => arr
  | j + 1 =>
    if arr.getD j 0 > arr.getD (j + 1) 0 then insertionSortInner (swap arr (j + 1) j) j
    else arr

/-- Outer loop of `insertionSort` with `n` iterations left and loop variable `i`. -/
def insertionSortOuter : Nat → List Int → Int → List Int
  | 0, arr, _ => arr
  | n + 1, arr, i => insertionSortOuter n (insertionSortInner arr i.toNat) (i + 1)

/-- The function `insertionSort(arr, start, end)`; `end` is inclusive.  The loop
`for (i = start + 1; i <= end; ++i)` runs `end - start` times. -/
def insertionSort (arr : List Int) (start end_ : Int) : List Int :=
  insertionSortOuter (end_ - start).toNat arr (start + 1)

/-- Loop of `partition` with `n` iterations left: state `(arr, lowSideEnd)` and
loop variable `i`. -/
def partitionLoop (pivot : Int) : Nat → List Int → Int → Int → List Int × Int
  | 0, arr, lowSideEnd, _ => (arr, lowSideEnd)
  | n + 1, arr, lowSideEnd, i =>
    if arr.getD i.toNat 0 ≤ pivot then
      partitionLoop pivot n (swap arr i.toNat (lowSideEnd + 1).toNat) (lowSideEnd + 1) (i + 1)
    else partitionLoop pivot n arr lowSideEnd (i + 1)

/-- The function `partition(arr, start, end)`: the array afterwards and the
returned pivot index. -/
def partition (arr : List Int) (start end_ : Int) : List Int × Int :=
  let pivot := arr.getD end_.toNat 0
  let r := partitionLoop pivot (end_ - start).toNat arr (start - 1) start
  (swap r.1 (r.2 + 1).toNat end_.toNat, r.2 + 1)

/-- The calls `std::make_heap(&arr[start], &arr[end + 1])` and
`std::sort_heap(&arr[start], &arr[end + 1])`: by the contract of the standard
library the range `[start, end]` is left in ascending order. -/
def heapSort (arr : List Int) (start end_ : Int) : List Int :=
  arr.take start.toNat
    ++ (((arr.drop start.toNat).take (end_ + 1 - start).toNat).insertionSort (· ≤ ·)
    ++ arr.drop (end_ + 1).toNat)

/-- The function `introSort(arr, start, end, depth)`; `fuel` bounds the nesting of
recursive calls. -/
def introSort : Nat → List Int → Int → Int → Int → Outcome (List Int)
  | 0, _, _, _, _ => .outOfFuel
  | fuel + 1, arr, start, end_, depth =>
    if end_ - start < insertionSortSize then .returns (insertionSort arr start end_)
    else if depth = maxDepth then .returns (heapSort arr start end_)
    else
      let p := partition arr start end_
      let pivotIdx := p.2
      if pivotIdx - 1 - start < end_ - pivotIdx + 1 then
        (introSort fuel p.1 start (pivotIdx - 1) (depth + 1)).bind fun arr1 =>
          introSort fuel arr1 (pivotIdx + 1) end_ (depth + 1)
      else
        (introSort fuel p.1 (pivotIdx + 1) end_ (depth + 1)).bind fun arr1 =>
          introSort fuel arr1 start (pivotIdx - 1) (depth + 1)

/-- The function `introSort` with a record of its call tree: beside the array it
returns the invocations of `introSort`, each as `(start, end, depth)`, in the
order in which they are entered.  The array is computed exactly as in
`introSort`. -/
def introSortTrace : Nat → List Int → Int → Int → Int →
    Outcome (List Int × List (Int × Int × Int))
  | 0, _, _, _, _ => .outOfFuel
  | fuel + 1, arr, start, end_, depth =>
    if end_ - start < insertionSortSize then
      .returns (insertionSort arr start end_, [(start, end_, depth)])
    else if depth = maxDepth then .returns (heapSort arr start end_, [(start, end_, depth)])
    else
      let p := partition arr start end_
      let pivotIdx := p.2
      if pivotIdx - 1 - start < end_ - pivotIdx + 1 then
        (introSortTrace fuel p.1 start (pivotIdx - 1) (depth + 1)).bind fun r1 =>
          (introSortTrace fuel r1.1 (pivotIdx + 1) end_ (depth + 1)).bind fun r2 =>
            .returns (r2.1, (start, end_, depth) :: (r1.2 ++ r2.2))
      else
        (introSortTrace fuel p.1 (pivotIdx + 1) end_ (depth + 1)).bind fun r1 =>
          (introSortTrace fuel r1.1 start (pivotIdx - 1) (depth + 1)).bind fun r2 =>
            .returns (r2.1, (start, end_, depth) :: (r1.2 ++ r2.2))

/-! ## The bucket container -/

/-- The class `bucketADT`: the overflow vector, the number of used slots of the
fixed array, and the fixed array `int arr[elementsPerBucket] = { 0 }`. -/
structure bucketADT where
  extension : List Int
  internalSize : Nat
  arr : List Int
deriving DecidableEq, Repr

/-- A default-constructed `bucketADT`. -/
def bucketADT.new : bucketADT := ⟨[], 0, List.replicate elementsPerBucket 0⟩

def bucketADT.getInternalSize (b : bucketADT) : Nat := b.internalSize

/-- The member function `push_back(val)`. -/
def bucketADT.push_back (b : bucketADT) (val : Int) : bucketADT :=
  if b.internalSize = elementsPerBucket then { b with extension := b.extension ++ [val] }
  else { b with arr := b.arr.set b.internalSize val, internalSize := b.internalSize + 1 }

/-- The member function `convert()`. -/
def bucketADT.convert (b : bucketADT) : List Int :=
  let ret := b.arr.take b.internalSize
  if b.internalSize = elementsPerBucket then ret ++ b.extension else ret

/-! ## Sorting a group of buckets -/

/-- Loop of `individualBucketSort` with `n` iterations left: state
`(buckets, result)` and loop variable `i`. -/
def individualBucketSortLoop (fuel : Nat) :
    Nat → List bucketADT → Int → List Int → Outcome (List bucketADT × List Int)
  | 0, buckets, _, result => .returns (buckets, result)
  | n + 1, buckets, i, result =>
    match buckets.get? i.toNat with
    | none => .outOfBounds
    | some b =>
      if b.getInternalSize < elementsPerBucket then
        (introSort fuel b.arr 0 ((b.getInternalSize : Int) - 1) 0).bind fun arr1 =>
          individualBucketSortLoop fuel n (buckets.set i.toNat { b with arr := arr1 }) (i + 1)
            (result ++ arr1.take b.getInternalSize)
      else
        let curr := b.convert
        (introSort fuel curr 0 ((curr.length : Int) - 1) 0).bind fun curr1 =>
          individualBucketSortLoop fuel n buckets (i + 1) (result ++ curr1)

/-- The function `individualBucketSort(buckets, start, end)`: the bucket array
afterwards (buckets below capacity are sorted in place) and the returned vector. -/
def individualBucketSort (fuel : Nat) (buckets : List bucketADT) (start end_ : Int) :
    Outcome (List bucketADT × List Int) :=
  individualBucketSortLoop fuel (end_ - start).toNat buckets start []

/-! ## The sort entry point -/

/-- Two's complement wrap-around of a `long` result. -/
def wrapLong (x : Int) : Int := (x + 2 ^ 63) % 2 ^ 64 - 2 ^ 63

/-- Conversion of a `long` to `int`: the low 32 bits, two's complement. -/
def wrapInt (x : Int) : Int := (x + 2 ^ 31) % 2 ^ 32 - 2 ^ 31

/-- The call `abs(x)` with a `long` argument: the function called is
`int abs(int)`, so the argument is converted to `int` first.  For `INT_MIN` the
negation wraps around to `INT_MIN`. -/
def intAbs (x : Int) : Int := wrapInt |wrapInt x|

/-- First loop of `bucketSort`: the running `(max, min)`. -/
def minMaxLoop : List Int → Int × Int → Int × Int
  | [], s => s
  | itr :: rest, (max, min) =>
    minMaxLoop rest (if itr > max then itr else max, if itr < min then itr else min)

/-- The variable `max` after the statement `max += 1`. -/
def maxOf (arr : List Int) : Int := wrapLong ((minMaxLoop arr (INT_MIN, INT_MAX)).1 + 1)

/-- The variable `min` after the first loop. -/
def minOf (arr : List Int) : Int := (minMaxLoop arr (INT_MIN, INT_MAX)).2

/-- The numerator `abs(curr - min)` of the proportion. -/
def numerator (curr min : Int) : Int := intAbs (wrapLong (curr - min))

/-- The denominator `abs(max - min)` of the proportion (`max` already incremented). -/
def denominator (max min : Int) : Int := intAbs (wrapLong (max - min))

/-- The value of
`(size_t)numBuckets * ((double)abs(curr - min) / (double)abs(max - min))`
converted to `size_t`, for a numerator that is not negative and a positive
denominator. -/
def bucketIndexValue (numBuckets curr min max : Int) : Nat :=
  Dbl.toNat (Dbl.mul (Dbl.ofNat (numBuckets % 2 ^ 64).toNat)
    (Dbl.div (Dbl.ofNat (numerator curr min).toNat) (Dbl.ofNat (denominator max min).toNat)))

/-- The statement
`size_t idx = (size_t)numBuckets * ((double)abs(curr - min) / (double)abs(max - min));`.
With a negative numerator (`abs(INT_MIN)`), a denominator that is zero or
negative, or a product that does not fit in a `size_t`, the stored value is not
defined. -/
def bucketIndex (numBuckets curr min max : Int) : Outcome Nat :=
  if numerator curr min < 0 ∨ denominator max min ≤ 0 then .undefined
  else if 2 ^ 64 ≤ bucketIndexValue numBuckets curr min max then .undefined
  else .returns (bucketIndexValue numBuckets curr min max)

/-- Second loop of `bucketSort`: every element is appended to its bucket. -/
def distribute (numBuckets min max : Int) : List Int → List bucketADT → Outcome (List bucketADT)
  | [], buckets => .returns buckets
  | curr :: rest, buckets =>
    (bucketIndex numBuckets curr min max).bind fun idx =>
      match buckets.get? idx with
      | none => .outOfBounds
      | some b => distribute numBuckets min max rest (buckets.set idx (b.push_back curr))

/-- Loop that creates the groups: the `(start, end)` pairs handed to `std::async`,
in submission order.  The sum `start + bucketsPerThread` is an `int`. -/
def groupLoop (bucketsPerThread numBuckets : Int) : Nat → Int → Outcome (List (Int × Int))
  | 0, _ => .outOfFuel
  | fuel + 1, start =>
    if start < numBuckets then
      if start + bucketsPerThread > INT_MAX then .undefined
      else
        let end_ := if start + bucketsPerThread > numBuckets then numBuckets
          else start + bucketsPerThread
        (groupLoop bucketsPerThread numBuckets fuel (start + bucketsPerThread)).bind fun rest =>
          .returns ((start, end_) :: rest)
    else .returns []

/-- Loop that gathers the results of the tasks in submission order. -/
def gather (fuel : Nat) : List (Int × Int) → List bucketADT → List Int → Outcome (List Int)
  | [], _, result => .returns result
  | (start, end_) :: rest, buckets, result =>
    (individualBucketSort fuel buckets start end_).bind fun r =>
      gather fuel rest r.1 (result ++ r.2)

/-- The function `bucketSort(arr, numBuckets)` on a machine whose
`hardware_concurrency()` is `processorCount`. -/
def bucketSort (fuel processorCount : Nat) (arr : List Int) (numBuckets : Int) :
    Outcome (List Int) :=
  if numBuckets < 0 then .badArrayNewLength
  else
    let buckets := List.replicate numBuckets.toNat bucketADT.new
    let max := maxOf arr
    let min := minOf arr
    (distribute numBuckets min max arr buckets).bind fun buckets1 =>
      if processorCount = 0 then
        (individualBucketSort fuel buckets1 0 numBuckets).bind fun r => .returns r.2
      else
        let bucketsPerThread : Int := numBuckets / (processorCount : Int)
        (groupLoop bucketsPerThread numBuckets fuel 0).bind fun sortedBuckets =>
          gather fuel sortedBuckets buckets1 []


/-! ## Specification vocabulary -/

/-- The values of the element type `int`. -/
def InIntRange (v : Int) : Prop := INT_MIN ≤ v ∧ v ≤ INT_MAX

instance (v : Int) : Decidable (InIntRange v) := by unfold InIntRange; infer_instance

/-- The rational value of a `double`. -/
def Dbl.val (x : Dbl) : ℚ := (x.man : ℚ) * (2 : ℚ) ^ x.exp

/-- Nearest integer to a rational, ties to even. -/
def rneQ (y : ℚ) : ℤ :=
  if 2 * Int.fract y < 1 then ⌊y⌋
  else if 1 < 2 * Int.fract y then ⌊y⌋ + 1
  else if ⌊y⌋ % 2 = 0 then ⌊y⌋ else ⌊y⌋ + 1

/-- Rounding of a rational to 53 significant bits, ties to even. -/
def roundQ (x : ℚ) : ℚ :=
  if x ≤ 0 then 0
  else (rneQ (x * (2 : ℚ) ^ (52 - Int.log 2 x)) : ℚ) * (2 : ℚ) ^ (Int.log 2 x - 52)

/-- The index formula on exact operands: both roundings, then truncation. -/
def idxQ (B a b : ℚ) : ℤ := ⌊roundQ (B * roundQ (a / b))⌋


/-- The array piece `L` in front of a range does not hold its last element above
any element of the range `M`. -/
def Fenced (L M : List Int) : Prop := ∀ l ∈ L.getLast?, ∀ m ∈ M, l ≤ m

/-- The elements a bucket holds: the used part of the fixed array, then the
overflow vector. -/
def bucketADT.contents (b : bucketADT) : List Int := b.arr.take b.internalSize ++ b.extension

/-- The class invariant of `bucketADT`: the fixed array has its declared length,
the count stays within it, and the overflow vector is used only once the fixed
array is full. -/
def bucketADT.Valid (b : bucketADT) : Prop :=
  b.arr.length = elementsPerBucket ∧ b.internalSize ≤ elementsPerBucket ∧
    (b.internalSize < elementsPerBucket → b.extension = [])

/-- The sorted contents of a bucket. -/
def bucketADT.sortedContents (b : bucketADT) : List Int := b.contents.insertionSort (· ≤ ·)

/-! ## Rounding to binary64 -/

theorem rneQ_ge_floor (y : ℚ) : ⌊y⌋ ≤ rneQ y := by
  unfold rneQ; split_ifs <;> omega

theorem rneQ_le_floor_succ (y : ℚ) : rneQ y ≤ ⌊y⌋ + 1 := by
  unfold rneQ; split_ifs <;> omega

theorem rneQ_intCast (k : ℤ) : rneQ (k : ℚ) = k := by
  unfold rneQ; simp

theorem rneQ_mono {y z : ℚ} (h : y ≤ z) : rneQ y ≤ rneQ z := by
  have hf : ⌊y⌋ ≤ ⌊z⌋ := Int.floor_mono h
  rcases lt_or_eq_of_le hf with hlt | heq
  · calc rneQ y ≤ ⌊y⌋ + 1 := rneQ_le_floor_succ y
      _ ≤ ⌊z⌋ := hlt
      _ ≤ rneQ z := rneQ_ge_floor z
  · have hfr : Int.fract y ≤ Int.fract z := by
      unfold Int.fract; rw [heq]; linarith
    unfold rneQ
    rw [heq]
    split_ifs <;> first | omega | linarith

theorem roundHalfEven_eq (n d : Nat) (hd : 0 < d) :
    ((roundHalfEven n d : Nat) : ℤ) = rneQ ((n : ℚ) / (d : ℚ)) := by
  have hdq : (0 : ℚ) < d := by exact_mod_cast hd
  have hfl : ⌊(n : ℚ) / (d : ℚ)⌋ = ((n / d : Nat) : ℤ) := by
    rw [Rat.floor_natCast_div_natCast]; norm_cast
  have key : (n : ℚ) = (d : ℚ) * ((n / d : Nat) : ℚ) + ((n % d : Nat) : ℚ) := by
    exact_mod_cast (Nat.div_add_mod n d).symm
  have hfr : Int.fract ((n : ℚ) / (d : ℚ)) = ((n % d : Nat) : ℚ) / d := by
    unfold Int.fract
    rw [hfl, Int.cast_natCast, eq_div_iff hdq.ne', sub_mul, div_mul_cancel₀ _ hdq.ne']
    generalize ((n / d : Nat) : ℚ) = q at key ⊢
    generalize ((n % d : Nat) : ℚ) = r at key ⊢
    rw [key]; ring
  have h1 : (2 * Int.fract ((n : ℚ) / (d : ℚ)) < 1) ↔ 2 * (n % d) < d := by
    rw [hfr, ← mul_div_assoc, div_lt_one hdq]
    exact_mod_cast Iff.rfl
  have h2 : (1 < 2 * Int.fract ((n : ℚ) / (d : ℚ))) ↔ d < 2 * (n % d) := by
    rw [hfr, ← mul_div_assoc, one_lt_div hdq]
    exact_mod_cast Iff.rfl
  unfold roundHalfEven rneQ
  simp only [h1, h2, hfl]
  split_ifs <;> first | rfl | omega


/-! ### The binade of a positive rational -/

theorem two_zpow_log_le {x : ℚ} (hx : 0 < x) : (2 : ℚ) ^ Int.log 2 x ≤ x := by
  have := Int.zpow_log_le_self (b := 2) (by norm_num) hx
  simpa using this

theorem lt_two_zpow_log_succ (x : ℚ) : x < (2 : ℚ) ^ (Int.log 2 x + 1) := by
  have := Int.lt_zpow_succ_log_self (b := 2) (by norm_num) x
  simpa using this

theorem log_eq_of_bracket {x : ℚ} {e : ℤ} (h1 : (2 : ℚ) ^ e ≤ x) (h2 : x < (2 : ℚ) ^ (e + 1)) :
    Int.log 2 x = e := by
  have hx : 0 < x := lt_of_lt_of_le (by positivity) h1
  have a1 : e ≤ Int.log 2 x := by
    rw [← Int.zpow_le_iff_le_log (by norm_num) hx]; simpa using h1
  have a2 : Int.log 2 x < e + 1 := by
    rw [← Int.lt_zpow_iff_log_lt (by norm_num) hx]; simpa using h2
  omega

theorem scaled_bracket {x : ℚ} (hx : 0 < x) :
    (2 : ℚ) ^ (52 : ℕ) ≤ x * (2 : ℚ) ^ (52 - Int.log 2 x) ∧
      x * (2 : ℚ) ^ (52 - Int.log 2 x) < (2 : ℚ) ^ (53 : ℕ) := by
  have h1 := two_zpow_log_le hx
  have h2 := lt_two_zpow_log_succ x
  have hp : (0 : ℚ) < (2 : ℚ) ^ (52 - Int.log 2 x) := by positivity
  constructor
  · have : (2 : ℚ) ^ (52 : ℕ) = (2 : ℚ) ^ Int.log 2 x * (2 : ℚ) ^ (52 - Int.log 2 x) := by
      rw [← zpow_add₀ (by norm_num : (2 : ℚ) ≠ 0), ← zpow_natCast]; congr 1; omega
    rw [this]
    exact mul_le_mul_of_nonneg_right h1 hp.le
  · have : (2 : ℚ) ^ (53 : ℕ) = (2 : ℚ) ^ (Int.log 2 x + 1) * (2 : ℚ) ^ (52 - Int.log 2 x) := by
      rw [← zpow_add₀ (by norm_num : (2 : ℚ) ≠ 0), ← zpow_natCast]; congr 1; omega
    rw [this]
    exact mul_lt_mul_of_pos_right h2 hp

theorem rneQ_scaled_bounds {x : ℚ} (hx : 0 < x) :
    (2 : ℤ) ^ (52 : ℕ) ≤ rneQ (x * (2 : ℚ) ^ (52 - Int.log 2 x)) ∧
      rneQ (x * (2 : ℚ) ^ (52 - Int.log 2 x)) ≤ (2 : ℤ) ^ (53 : ℕ) := by
  obtain ⟨h1, h2⟩ := scaled_bracket hx
  constructor
  · have := rneQ_mono (y := (((2 : ℤ) ^ (52 : ℕ) : ℤ) : ℚ)) (by push_cast; exact h1)
    rwa [rneQ_intCast] at this
  · have := rneQ_mono (z := (((2 : ℤ) ^ (53 : ℕ) : ℤ) : ℚ)) (by push_cast; exact h2.le)
    rwa [rneQ_intCast] at this

theorem roundQ_nonneg (x : ℚ) : 0 ≤ roundQ x := by
  unfold roundQ
  split_ifs with h
  · exact le_rfl
  · push_neg at h
    have := (rneQ_scaled_bounds h).1
    have h0 : (0 : ℚ) ≤ (rneQ (x * (2 : ℚ) ^ (52 - Int.log 2 x)) : ℚ) := by
      have : (0 : ℤ) ≤ rneQ (x * (2 : ℚ) ^ (52 - Int.log 2 x)) := le_trans (by positivity) this
      exact_mod_cast this
    positivity

theorem roundQ_bracket {x : ℚ} (hx : 0 < x) :
    (2 : ℚ) ^ Int.log 2 x ≤ roundQ x ∧ roundQ x ≤ (2 : ℚ) ^ (Int.log 2 x + 1) := by
  obtain ⟨h1, h2⟩ := rneQ_scaled_bounds hx
  have hp : (0 : ℚ) < (2 : ℚ) ^ (Int.log 2 x - 52) := by positivity
  have e1 : (2 : ℚ) ^ Int.log 2 x = (2 : ℚ) ^ (52 : ℕ) * (2 : ℚ) ^ (Int.log 2 x - 52) := by
    rw [← zpow_natCast, ← zpow_add₀ (by norm_num : (2 : ℚ) ≠ 0)]; congr 1; omega
  have e2 : (2 : ℚ) ^ (Int.log 2 x + 1) = (2 : ℚ) ^ (53 : ℕ) * (2 : ℚ) ^ (Int.log 2 x - 52) := by
    rw [← zpow_natCast, ← zpow_add₀ (by norm_num : (2 : ℚ) ≠ 0)]; congr 1; omega
  have q1 : ((2 : ℚ) ^ (52 : ℕ)) ≤ (rneQ (x * (2 : ℚ) ^ (52 - Int.log 2 x)) : ℚ) := by
    exact_mod_cast h1
  have q2 : (rneQ (x * (2 : ℚ) ^ (52 - Int.log 2 x)) : ℚ) ≤ ((2 : ℚ) ^ (53 : ℕ)) := by
    exact_mod_cast h2
  unfold roundQ
  rw [if_neg (not_le.mpr hx), e1, e2]
  exact ⟨mul_le_mul_of_nonneg_right q1 hp.le, mul_le_mul_of_nonneg_right q2 hp.le⟩

/-- Rounding is monotone. -/
theorem roundQ_mono {x y : ℚ} (h : x ≤ y) : roundQ x ≤ roundQ y := by
  rcases le_or_lt x 0 with hx | hx
  · have : roundQ x = 0 := by unfold roundQ; rw [if_pos hx]
    rw [this]; exact roundQ_nonneg y
  · have hy : 0 < y := lt_of_lt_of_le hx h
    have hl : Int.log 2 x ≤ Int.log 2 y := Int.log_mono_right hx h
    rcases lt_or_eq_of_le hl with hlt | heq
    · calc roundQ x ≤ (2 : ℚ) ^ (Int.log 2 x + 1) := (roundQ_bracket hx).2
        _ ≤ (2 : ℚ) ^ Int.log 2 y := zpow_le_zpow_right₀ (by norm_num) (by omega)
        _ ≤ roundQ y := (roundQ_bracket hy).1
    · unfold roundQ
      rw [if_neg (not_le.mpr hx), if_neg (not_le.mpr hy), heq]
      have hp : (0 : ℚ) < (2 : ℚ) ^ (52 - Int.log 2 y) := by positivity
      have hp2 : (0 : ℚ) < (2 : ℚ) ^ (Int.log 2 y - 52) := by positivity
      have := rneQ_mono (mul_le_mul_of_nonneg_right h hp.le)
      have hc : (rneQ (x * (2 : ℚ) ^ (52 - Int.log 2 y)) : ℚ) ≤
          (rneQ (y * (2 : ℚ) ^ (52 - Int.log 2 y)) : ℚ) := by exact_mod_cast this
      exact mul_le_mul_of_nonneg_right hc hp2.le

/-- A value with a significand below `2 ^ 53` is a `double`: rounding keeps it. -/
theorem roundQ_fix (m : ℕ) (k : ℤ) (hm : m < 2 ^ 53) :
    roundQ ((m : ℚ) * (2 : ℚ) ^ k) = (m : ℚ) * (2 : ℚ) ^ k := by
  rcases Nat.eq_zero_or_pos m with h0 | hpos
  · subst h0; simp [roundQ]
  · have hmq : (0 : ℚ) < m := by exact_mod_cast hpos
    have hx : (0 : ℚ) < (m : ℚ) * (2 : ℚ) ^ k := by positivity
    have h1 := two_zpow_log_le hx
    obtain ⟨e, he⟩ : ∃ e, Int.log 2 ((m : ℚ) * (2 : ℚ) ^ k) = e := ⟨_, rfl⟩
    rw [he] at h1
    have hlt : (2 : ℚ) ^ e < (2 : ℚ) ^ (53 + k) := by
      calc (2 : ℚ) ^ e ≤ (m : ℚ) * (2 : ℚ) ^ k := h1
        _ < (2 : ℚ) ^ (53 : ℕ) * (2 : ℚ) ^ k := by
            apply mul_lt_mul_of_pos_right _ (by positivity)
            exact_mod_cast hm
        _ = (2 : ℚ) ^ (53 + k) := by
            rw [← zpow_natCast, ← zpow_add₀ (by norm_num : (2 : ℚ) ≠ 0)]; rfl
    have hle : e < 53 + k := (zpow_lt_zpow_iff_right₀ (by norm_num : (1 : ℚ) < 2)).mp hlt
    obtain ⟨j, hj⟩ : ∃ j : ℕ, (j : ℤ) = k + 52 - e := ⟨(k + 52 - e).toNat, by omega⟩
    have hsc : (m : ℚ) * (2 : ℚ) ^ k * (2 : ℚ) ^ (52 - e) = (((m * 2 ^ j : ℕ) : ℤ) : ℚ) := by
      rw [mul_assoc, ← zpow_add₀ (by norm_num : (2 : ℚ) ≠ 0)]
      push_cast
      rw [← zpow_natCast, hj]; congr 2; omega
    have hback : (((m * 2 ^ j : ℕ) : ℤ) : ℚ) * (2 : ℚ) ^ (e - 52) = (m : ℚ) * (2 : ℚ) ^ k := by
      push_cast
      rw [mul_assoc, ← zpow_natCast, ← zpow_add₀ (by norm_num : (2 : ℚ) ≠ 0), hj]
      congr 2; omega
    have : roundQ ((m : ℚ) * (2 : ℚ) ^ k) =
        (rneQ ((m : ℚ) * (2 : ℚ) ^ k * (2 : ℚ) ^ (52 - Int.log 2 ((m : ℚ) * (2 : ℚ) ^ k))) : ℚ)
          * (2 : ℚ) ^ (Int.log 2 ((m : ℚ) * (2 : ℚ) ^ k) - 52) := by
      unfold roundQ; rw [if_neg (not_le.mpr hx)]
    rw [this, he, hsc, rneQ_intCast, hback]

theorem roundQ_scale {x : ℚ} (k : ℤ) : roundQ (x * (2 : ℚ) ^ k) = roundQ x * (2 : ℚ) ^ k := by
  rcases le_or_lt x 0 with hx | hx
  · have hp : (0 : ℚ) < (2 : ℚ) ^ k := by positivity
    have h2 : x * (2 : ℚ) ^ k ≤ 0 := mul_nonpos_of_nonpos_of_nonneg hx hp.le
    unfold roundQ; rw [if_pos hx, if_pos h2, zero_mul]
  · have hp : (0 : ℚ) < (2 : ℚ) ^ k := by positivity
    have hxk : 0 < x * (2 : ℚ) ^ k := by positivity
    have hlog : Int.log 2 (x * (2 : ℚ) ^ k) = Int.log 2 x + k := by
      apply log_eq_of_bracket
      · rw [zpow_add₀ (by norm_num : (2 : ℚ) ≠ 0)]
        exact mul_le_mul_of_nonneg_right (two_zpow_log_le hx) hp.le
      · have : (2 : ℚ) ^ (Int.log 2 x + k + 1) = (2 : ℚ) ^ (Int.log 2 x + 1) * (2 : ℚ) ^ k := by
          rw [← zpow_add₀ (by norm_num : (2 : ℚ) ≠ 0)]; congr 1; omega
        rw [this]
        exact mul_lt_mul_of_pos_right (lt_two_zpow_log_succ x) hp
    unfold roundQ
    rw [if_neg (not_le.mpr hx), if_neg (not_le.mpr hxk), hlog]
    have e1 : x * (2 : ℚ) ^ k * (2 : ℚ) ^ (52 - (Int.log 2 x + k)) = x * (2 : ℚ) ^ (52 - Int.log 2 x) := by
      rw [mul_assoc, ← zpow_add₀ (by norm_num : (2 : ℚ) ≠ 0)]; congr 2; omega
    have e2 : (2 : ℚ) ^ (Int.log 2 x + k - 52) = (2 : ℚ) ^ (Int.log 2 x - 52) * (2 : ℚ) ^ k := by
      rw [← zpow_add₀ (by norm_num : (2 : ℚ) ≠ 0)]; congr 1; omega
    rw [e1, e2, mul_assoc]

theorem log2Fuel_spec : ∀ (fuel n : Nat), 0 < n → n ≤ fuel →
    2 ^ log2Fuel fuel n ≤ n ∧ n < 2 ^ (log2Fuel fuel n + 1)
  | 0, n, h0, h1 => by omega
  | fuel + 1, n, h0, h1 => by
    unfold log2Fuel
    split_ifs with h
    · constructor <;> simp <;> omega
    · have ih := log2Fuel_spec fuel (n / 2) (by omega) (by omega)
      obtain ⟨i1, i2⟩ := ih
      rw [pow_succ, pow_succ]
      constructor <;> omega

theorem two_zpow_split (k : ℤ) :
    (2 : ℚ) ^ k = (2 : ℚ) ^ k.toNat / (2 : ℚ) ^ (-k).toNat := by
  rcases le_or_lt 0 k with h | h
  · have h1 : (-k).toNat = 0 := by omega
    rw [h1, pow_zero, div_one, ← zpow_natCast]; congr 1; omega
  · have h1 : k.toNat = 0 := by omega
    rw [h1, pow_zero, one_div, ← zpow_natCast, ← zpow_neg]; congr 1; omega

theorem scaled_div (n d : Nat) (hd : 0 < d) (k : ℤ) :
    (((n * 2 ^ k.toNat : Nat) : ℚ) / ((d * 2 ^ (-k).toNat : Nat) : ℚ)) = (n : ℚ) / d * (2 : ℚ) ^ k := by
  have hdq : (d : ℚ) ≠ 0 := by exact_mod_cast hd.ne'
  rw [two_zpow_split k]
  push_cast
  field_simp

theorem floorLog2_spec (n d : Nat) (hn : 0 < n) (hd : 0 < d) :
    (2 : ℚ) ^ floorLog2 n d ≤ (n : ℚ) / d ∧ (n : ℚ) / d < (2 : ℚ) ^ (floorLog2 n d + 1) := by
  obtain ⟨a1, a2⟩ := log2Fuel_spec n n hn le_rfl
  obtain ⟨c1, c2⟩ := log2Fuel_spec d d hd le_rfl
  have hdq : (0 : ℚ) < d := by exact_mod_cast hd
  have hnq : (0 : ℚ) < n := by exact_mod_cast hn
  unfold floorLog2
  dsimp only
  generalize log2Fuel n n = a at a1 a2 ⊢
  generalize log2Fuel d d = c at c1 c2 ⊢
  have a1q : (2 : ℚ) ^ (a : ℤ) ≤ n := by rw [zpow_natCast]; exact_mod_cast a1
  have a2q : (n : ℚ) < (2 : ℚ) ^ ((a : ℤ) + 1) := by
    have : (n : ℚ) < (2 : ℚ) ^ (a + 1) := by exact_mod_cast a2
    rwa [← zpow_natCast, Nat.cast_add, Nat.cast_one] at this
  have c1q : (2 : ℚ) ^ (c : ℤ) ≤ d := by rw [zpow_natCast]; exact_mod_cast c1
  have c2q : (d : ℚ) < (2 : ℚ) ^ ((c : ℤ) + 1) := by
    have : (d : ℚ) < (2 : ℚ) ^ (c + 1) := by exact_mod_cast c2
    rwa [← zpow_natCast, Nat.cast_add, Nat.cast_one] at this
  have up : (n : ℚ) / d < (2 : ℚ) ^ ((a : ℤ) - c + 1) := by
    rw [div_lt_iff₀ hdq]
    calc (n : ℚ) < (2 : ℚ) ^ ((a : ℤ) + 1) := a2q
      _ = (2 : ℚ) ^ ((a : ℤ) - c + 1) * (2 : ℚ) ^ (c : ℤ) := by
          rw [← zpow_add₀ (by norm_num : (2 : ℚ) ≠ 0)]; congr 1; omega
      _ ≤ (2 : ℚ) ^ ((a : ℤ) - c + 1) * d := mul_le_mul_of_nonneg_left c1q (by positivity)
  have lo : (2 : ℚ) ^ ((a : ℤ) - c - 1) ≤ (n : ℚ) / d := by
    rw [le_div_iff₀ hdq]
    calc (2 : ℚ) ^ ((a : ℤ) - c - 1) * d ≤ (2 : ℚ) ^ ((a : ℤ) - c - 1) * (2 : ℚ) ^ ((c : ℤ) + 1) :=
          mul_le_mul_of_nonneg_left c2q.le (by positivity)
      _ = (2 : ℚ) ^ (a : ℤ) := by
          rw [← zpow_add₀ (by norm_num : (2 : ℚ) ≠ 0)]; congr 1; omega
      _ ≤ n := a1q
  have hc : (d * 2 ^ ((a : ℤ) - c).toNat ≤ n * 2 ^ (-((a : ℤ) - c)).toNat) ↔
      (2 : ℚ) ^ ((a : ℤ) - c) ≤ (n : ℚ) / d := by
    rw [two_zpow_split, div_le_div_iff₀ (by positivity) hdq]
    constructor
    · intro h
      have : ((d * 2 ^ ((a : ℤ) - c).toNat : Nat) : ℚ) ≤ ((n * 2 ^ (-((a : ℤ) - c)).toNat : Nat) : ℚ) := by
        exact_mod_cast h
      push_cast at this; linarith
    · intro h
      have : ((d * 2 ^ ((a : ℤ) - c).toNat : Nat) : ℚ) ≤ ((n * 2 ^ (-((a : ℤ) - c)).toNat : Nat) : ℚ) := by
        push_cast; linarith
      exact_mod_cast this
  split_ifs with h
  · exact ⟨hc.mp h, up⟩
  · refine ⟨lo, ?_⟩
    have := lt_of_not_le (fun hh => h (hc.mpr hh))
    simpa using this

theorem val_round53 (n d : Nat) (hd : 0 < d) :
    Dbl.val (round53 n d) = roundQ ((n : ℚ) / d) := by
  rcases Nat.eq_zero_or_pos n with h0 | hn
  · subst h0; simp [round53, Dbl.val, roundQ]
  · have hdq : (0 : ℚ) < d := by exact_mod_cast hd
    have hnq : (0 : ℚ) < n := by exact_mod_cast hn
    have hx : (0 : ℚ) < (n : ℚ) / d := by positivity
    obtain ⟨b1, b2⟩ := floorLog2_spec n d hn hd
    have hlog := log_eq_of_bracket b1 b2
    have hpos : 0 < d * 2 ^ (-(52 - floorLog2 n d)).toNat := by positivity
    have hman := roundHalfEven_eq (n * 2 ^ (52 - floorLog2 n d).toNat)
      (d * 2 ^ (-(52 - floorLog2 n d)).toNat) hpos
    rw [scaled_div n d hd] at hman
    unfold round53 Dbl.val roundQ
    rw [if_neg hn.ne', if_neg (not_le.mpr hx), hlog]
    simp only []
    have : ((roundHalfEven (n * 2 ^ (52 - floorLog2 n d).toNat)
        (d * 2 ^ (-(52 - floorLog2 n d)).toNat) : Nat) : ℚ) =
        ((rneQ ((n : ℚ) / d * (2 : ℚ) ^ (52 - floorLog2 n d)) : ℤ) : ℚ) := by
      rw [← hman]; simp
    rw [this]
    congr 2; omega

theorem val_ofNat (n : Nat) : Dbl.val (Dbl.ofNat n) = roundQ n := by
  unfold Dbl.ofNat; rw [val_round53 n 1 (by norm_num)]; simp

theorem val_ofNat_small (n : Nat) (h : n < 2 ^ 53) : Dbl.val (Dbl.ofNat n) = n := by
  rw [val_ofNat]
  have := roundQ_fix n 0 h
  simpa using this

theorem val_div (x y : Dbl) (hy : 0 < y.man) :
    Dbl.val (Dbl.div x y) = roundQ (Dbl.val x / Dbl.val y) := by
  unfold Dbl.div
  simp only []
  rw [val_round53 _ _ (by positivity), scaled_div _ _ hy]
  unfold Dbl.val
  have hyq : (y.man : ℚ) ≠ 0 := by exact_mod_cast hy.ne'
  congr 1
  rw [zpow_sub₀ (by norm_num : (2 : ℚ) ≠ 0)]
  field_simp

theorem val_mul (x y : Dbl) : Dbl.val (Dbl.mul x y) = roundQ (Dbl.val x * Dbl.val y) := by
  have h := val_round53 (x.man * y.man) 1 (by norm_num)
  unfold Dbl.mul
  unfold Dbl.val at h ⊢
  simp only [] at h ⊢
  have e : (x.man : ℚ) * (2 : ℚ) ^ x.exp * ((y.man : ℚ) * (2 : ℚ) ^ y.exp) =
      ((x.man * y.man : Nat) : ℚ) / ((1 : Nat) : ℚ) * (2 : ℚ) ^ (x.exp + y.exp) := by
    rw [zpow_add₀ (by norm_num : (2 : ℚ) ≠ 0)]; push_cast; ring
  rw [e, roundQ_scale, ← h, add_assoc, zpow_add₀ (by norm_num : (2 : ℚ) ≠ 0), mul_assoc]

theorem toNat_eq_floor (x : Dbl) : ((Dbl.toNat x : Nat) : ℤ) = ⌊Dbl.val x⌋ := by
  unfold Dbl.toNat Dbl.val
  rw [two_zpow_split, ← mul_div_assoc]
  have : (x.man : ℚ) * (2 : ℚ) ^ x.exp.toNat / (2 : ℚ) ^ (-x.exp).toNat =
      ((x.man * 2 ^ x.exp.toNat : Nat) : ℚ) / ((2 ^ (-x.exp).toNat : Nat) : ℚ) := by
    push_cast; rfl
  rw [this, Rat.floor_natCast_div_natCast]
  norm_cast

/-! ### The bucket index as a rational expression -/

theorem idxQ_mono {B a a' b : ℚ} (hB : 0 ≤ B) (hb : 0 < b) (h : a ≤ a') :
    idxQ B a b ≤ idxQ B a' b := by
  unfold idxQ
  apply Int.floor_mono
  apply roundQ_mono
  apply mul_le_mul_of_nonneg_left _ hB
  apply roundQ_mono
  exact div_le_div_of_nonneg_right h hb.le

theorem idxQ_nonneg (B a b : ℚ) : 0 ≤ idxQ B a b := by
  unfold idxQ
  exact Int.floor_nonneg.mpr (roundQ_nonneg _)

theorem roundQ_le_of_le_fix {x : ℚ} (m : ℕ) (k : ℤ) (hm : m < 2 ^ 53)
    (h : x ≤ (m : ℚ) * (2 : ℚ) ^ k) : roundQ x ≤ (m : ℚ) * (2 : ℚ) ^ k := by
  have := roundQ_mono h
  rwa [roundQ_fix m k hm] at this

theorem idxQ_lt {B a b : ℤ} (ha : 0 ≤ a) (hab : a < b) (hb : b ≤ 2 ^ 32)
    (hB1 : 1 ≤ B) (hB2 : B < 2 ^ 31) : idxQ B a b < B := by
  have hbq : (0 : ℚ) < b := by exact_mod_cast (lt_of_le_of_lt ha hab)
  have hBq : (0 : ℚ) < B := by exact_mod_cast (lt_of_lt_of_le zero_lt_one hB1)
  -- the proportion is at most 1 - 2 ^ (-32)
  have hq : roundQ ((a : ℚ) / b) ≤ ((2 ^ 32 - 1 : ℕ) : ℚ) * (2 : ℚ) ^ (-32 : ℤ) := by
    apply roundQ_le_of_le_fix _ _ (by norm_num)
    rw [div_le_iff₀ hbq]
    have h1 : (a : ℚ) ≤ b - 1 := by exact_mod_cast (by omega : a ≤ b - 1)
    have h2 : (b : ℚ) ≤ 2 ^ 32 := by exact_mod_cast hb
    have e : ((2 ^ 32 - 1 : ℕ) : ℚ) * (2 : ℚ) ^ (-32 : ℤ) = 1 - 1 / 2 ^ 32 := by
      norm_num
    rw [e]
    have h3 : (b : ℚ) / 2 ^ 32 ≤ 1 := by rw [div_le_one (by positivity)]; exact h2
    have : (1 - 1 / 2 ^ 32) * (b : ℚ) = b - b / 2 ^ 32 := by ring
    rw [this]; linarith
  have hprod : (B : ℚ) * roundQ ((a : ℚ) / b) ≤
      (B : ℚ) * (((2 ^ 32 - 1 : ℕ) : ℚ) * (2 : ℚ) ^ (-32 : ℤ)) :=
    mul_le_mul_of_nonneg_left hq hBq.le
  have e : ((2 ^ 32 - 1 : ℕ) : ℚ) * (2 : ℚ) ^ (-32 : ℤ) = 1 - 1 / 2 ^ 32 := by norm_num
  rw [e] at hprod
  have hlt : roundQ ((B : ℚ) * roundQ ((a : ℚ) / b)) < B := by
    obtain ⟨n, hn⟩ : ∃ n : ℕ, (n : ℤ) = B := ⟨B.toNat, by omega⟩
    have hnB : ((n : ℚ)) = (B : ℚ) := by exact_mod_cast congrArg (Int.cast (R := ℚ)) hn
    rcases le_or_lt B (2 ^ 21) with hs | hs
    · -- the bound itself is a double
      have hm : n * (2 ^ 32 - 1) < 2 ^ 53 := by
        have : n ≤ 2 ^ 21 := by omega
        calc n * (2 ^ 32 - 1) ≤ 2 ^ 21 * (2 ^ 32 - 1) := Nat.mul_le_mul_right _ this
          _ < 2 ^ 53 := by norm_num
      have hr := roundQ_le_of_le_fix (x := (B : ℚ) * roundQ ((a : ℚ) / b))
        (n * (2 ^ 32 - 1)) (-32) hm (by
          have : ((n * (2 ^ 32 - 1) : ℕ) : ℚ) * (2 : ℚ) ^ (-32 : ℤ) = (B : ℚ) * (1 - 1 / 2 ^ 32) := by
            rw [← hnB]; push_cast; norm_num; ring
          rw [this]; exact hprod)
      have : ((n * (2 ^ 32 - 1) : ℕ) : ℚ) * (2 : ℚ) ^ (-32 : ℤ) < B := by
        have : ((n * (2 ^ 32 - 1) : ℕ) : ℚ) * (2 : ℚ) ^ (-32 : ℤ) = (B : ℚ) * (1 - 1 / 2 ^ 32) := by
          rw [← hnB]; push_cast; norm_num; ring
        rw [this]
        have : (B : ℚ) * (1 - 1 / 2 ^ 32) = B - B / 2 ^ 32 := by ring
        rw [this]
        have : (0 : ℚ) < (B : ℚ) / 2 ^ 32 := by positivity
        linarith
      exact lt_of_le_of_lt hr this
    · -- one unit in the last place below `B` is a double above the bound
      have hm : n * 2 ^ 22 - 1 < 2 ^ 53 := by
        have : n < 2 ^ 31 := by omega
        have : n * 2 ^ 22 < 2 ^ 31 * 2 ^ 22 := Nat.mul_lt_mul_of_pos_right this (by norm_num)
        omega
      have hn1 : 1 ≤ n * 2 ^ 22 := by
        have : 1 ≤ n := by omega
        calc 1 ≤ 1 * 2 ^ 22 := by norm_num
          _ ≤ n * 2 ^ 22 := Nat.mul_le_mul_right _ this
      have hval : ((n * 2 ^ 22 - 1 : ℕ) : ℚ) * (2 : ℚ) ^ (-22 : ℤ) = (B : ℚ) - 1 / 2 ^ 22 := by
        rw [← hnB, Nat.cast_sub hn1]; push_cast; norm_num; ring
      have hB21 : (2 : ℚ) ^ 21 ≤ B := by exact_mod_cast hs.le
      have hr := roundQ_le_of_le_fix (x := (B : ℚ) * roundQ ((a : ℚ) / b))
        (n * 2 ^ 22 - 1) (-22) hm (by
          rw [hval]
          have : (B : ℚ) * (1 - 1 / 2 ^ 32) = B - B / 2 ^ 32 := by ring
          rw [this] at hprod
          have : (1 : ℚ) / 2 ^ 22 ≤ (B : ℚ) / 2 ^ 32 := by
            rw [div_le_div_iff₀ (by positivity) (by positivity)]
            calc (1 : ℚ) * 2 ^ 32 ≤ 2 ^ 21 * 2 ^ 22 := by norm_num
              _ ≤ (B : ℚ) * 2 ^ 22 := mul_le_mul_of_nonneg_right hB21 (by positivity)
          linarith)
      rw [hval] at hr
      have : (0 : ℚ) < 1 / 2 ^ 22 := by positivity
      linarith
  unfold idxQ
  rw [Int.floor_lt]
  exact hlt

/-! ### The `long` arithmetic on `min` and `max` -/

theorem wrapLong_eq {x : Int} (h1 : -2 ^ 63 ≤ x) (h2 : x < 2 ^ 63) : wrapLong x = x := by
  unfold wrapLong; omega

theorem wrapInt_eq {x : Int} (h1 : -2 ^ 31 ≤ x) (h2 : x < 2 ^ 31) : wrapInt x = x := by
  unfold wrapInt; omega

/-- On a value that fits in an `int` and is not negative, `abs` is the identity. -/
theorem intAbs_eq {x : Int} (h1 : 0 ≤ x) (h2 : x < 2 ^ 31) : intAbs x = x := by
  unfold intAbs
  rw [wrapInt_eq (by omega) h2, abs_of_nonneg h1]
  exact wrapInt_eq (by omega) h2

theorem minMaxLoop_spec : ∀ (l : List Int) (mx0 mn0 : Int),
    mx0 ≤ (minMaxLoop l (mx0, mn0)).1 ∧ (minMaxLoop l (mx0, mn0)).2 ≤ mn0 ∧
    (∀ v ∈ l, (minMaxLoop l (mx0, mn0)).2 ≤ v ∧ v ≤ (minMaxLoop l (mx0, mn0)).1) ∧
    ((minMaxLoop l (mx0, mn0)).1 = mx0 ∨ (minMaxLoop l (mx0, mn0)).1 ∈ l) ∧
    ((minMaxLoop l (mx0, mn0)).2 = mn0 ∨ (minMaxLoop l (mx0, mn0)).2 ∈ l)
  | [], mx0, mn0 => by simp [minMaxLoop]
  | itr :: rest, mx0, mn0 => by
    have hm1 : mx0 ≤ (if itr > mx0 then itr else mx0) ∧ itr ≤ (if itr > mx0 then itr else mx0) ∧
        ((if itr > mx0 then itr else mx0) = mx0 ∨ (if itr > mx0 then itr else mx0) = itr) := by
      split_ifs <;> omega
    have hm2 : (if itr < mn0 then itr else mn0) ≤ mn0 ∧ (if itr < mn0 then itr else mn0) ≤ itr ∧
        ((if itr < mn0 then itr else mn0) = mn0 ∨ (if itr < mn0 then itr else mn0) = itr) := by
      split_ifs <;> omega
    have ih := minMaxLoop_spec rest (if itr > mx0 then itr else mx0) (if itr < mn0 then itr else mn0)
    simp only [minMaxLoop]
    generalize (if itr > mx0 then itr else mx0) = mx1 at hm1 ih ⊢
    generalize (if itr < mn0 then itr else mn0) = mn1 at hm2 ih ⊢
    obtain ⟨i1, i2, i3, i4, i5⟩ := ih
    refine ⟨by omega, by omega, ?_, ?_, ?_⟩
    · intro v hv
      rcases List.mem_cons.mp hv with rfl | hv
      · constructor <;> omega
      · exact i3 v hv
    · rcases i4 with h | h
      · rcases hm1.2.2 with h1 | h1
        · left; omega
        · right; rw [h, h1]; exact List.mem_cons_self _ _
      · right; exact List.mem_cons_of_mem _ h
    · rcases i5 with h | h
      · rcases hm2.2.2 with h1 | h1
        · left; omega
        · right; rw [h, h1]; exact List.mem_cons_self _ _
      · right; exact List.mem_cons_of_mem _ h

theorem minMax_facts {arr : List Int} (hr : ∀ v ∈ arr, InIntRange v) :
    maxOf arr = (minMaxLoop arr (INT_MIN, INT_MAX)).1 + 1 ∧
    INT_MIN ≤ (minMaxLoop arr (INT_MIN, INT_MAX)).1 ∧
    (minMaxLoop arr (INT_MIN, INT_MAX)).1 ≤ INT_MAX ∧
    INT_MIN ≤ minOf arr ∧ minOf arr ≤ INT_MAX ∧
    ∀ v ∈ arr, minOf arr ≤ v ∧ v < maxOf arr := by
  obtain ⟨i1, i2, i3, i4, i5⟩ := minMaxLoop_spec arr INT_MIN INT_MAX
  have hmx : (minMaxLoop arr (INT_MIN, INT_MAX)).1 ≤ INT_MAX := by
    rcases i4 with h | h
    · rw [h]; unfold INT_MIN INT_MAX; omega
    · exact (hr _ h).2
  have hmn : INT_MIN ≤ (minMaxLoop arr (INT_MIN, INT_MAX)).2 := by
    rcases i5 with h | h
    · rw [h]; unfold INT_MIN INT_MAX; omega
    · exact (hr _ h).1
  have hw : maxOf arr = (minMaxLoop arr (INT_MIN, INT_MAX)).1 + 1 := by
    unfold maxOf
    apply wrapLong_eq <;> (unfold INT_MIN INT_MAX at *; omega)
  refine ⟨hw, i1, hmx, hmn, i2, ?_⟩
  intro v hv
  rw [hw]
  have := i3 v hv
  unfold minOf
  omega

/-- When the spread `max + 1 - min` of the input fits in an `int`, the conversion
to `int` and `abs` leave the two differences unchanged. -/
theorem numerator_facts {arr : List Int} (hr : ∀ v ∈ arr, InIntRange v)
    (hn : maxOf arr - minOf arr < 2 ^ 31) {curr : Int} (hc : curr ∈ arr) :
    numerator curr (minOf arr) = curr - minOf arr ∧
    denominator (maxOf arr) (minOf arr) = maxOf arr - minOf arr ∧
    0 ≤ curr - minOf arr ∧ curr - minOf arr < maxOf arr - minOf arr ∧
    maxOf arr - minOf arr ≤ 2 ^ 32 := by
  obtain ⟨hw, h1, h2, h3, h4, h5⟩ := minMax_facts hr
  obtain ⟨c1, c2⟩ := h5 curr hc
  obtain ⟨r1, r2⟩ := hr curr hc
  unfold INT_MIN INT_MAX at *
  have e1 : wrapLong (curr - minOf arr) = curr - minOf arr := wrapLong_eq (by omega) (by omega)
  have e2 : wrapLong (maxOf arr - minOf arr) = maxOf arr - minOf arr :=
    wrapLong_eq (by omega) (by omega)
  refine ⟨?_, ?_, by omega, by omega, by omega⟩
  · unfold numerator; rw [e1]; exact intAbs_eq (by omega) (by omega)
  · unfold denominator; rw [e2]; exact intAbs_eq (by omega) (by omega)

/-- On operands in range the computed index is the rational formula `idxQ`. -/
theorem bucketIndex_eq_idxQ {B a b : Int} {curr mn mx : Int}
    (hnum : numerator curr mn = a) (hden : denominator mx mn = b)
    (ha : 0 ≤ a) (hab : a < b) (hb : b ≤ 2 ^ 32) (hB0 : 0 ≤ B) (hB2 : B < 2 ^ 31) :
    ((bucketIndexValue B curr mn mx : Nat) : ℤ) = idxQ B a b := by
  unfold bucketIndexValue idxQ
  rw [hnum, hden, toNat_eq_floor, val_mul]
  have hBmod : (B % 2 ^ 64).toNat = B.toNat := by
    congr 1; exact Int.emod_eq_of_lt hB0 (by omega)
  have vB : Dbl.val (Dbl.ofNat (B % 2 ^ 64).toNat) = (B : ℚ) := by
    rw [hBmod, val_ofNat_small _ (by omega)]
    have : ((B.toNat : ℤ)) = B := Int.toNat_of_nonneg hB0
    exact_mod_cast congrArg (Int.cast (R := ℚ)) this
  have va : Dbl.val (Dbl.ofNat a.toNat) = (a : ℚ) := by
    rw [val_ofNat_small _ (by omega)]
    have : ((a.toNat : ℤ)) = a := Int.toNat_of_nonneg ha
    exact_mod_cast congrArg (Int.cast (R := ℚ)) this
  have vb : Dbl.val (Dbl.ofNat b.toNat) = (b : ℚ) := by
    rw [val_ofNat_small _ (by omega)]
    have : ((b.toNat : ℤ)) = b := Int.toNat_of_nonneg (by omega)
    exact_mod_cast congrArg (Int.cast (R := ℚ)) this
  have hbman : 0 < (Dbl.ofNat b.toNat).man := by
    by_contra h
    have h0 : (Dbl.ofNat b.toNat).man = 0 := by omega
    have : Dbl.val (Dbl.ofNat b.toNat) = 0 := by unfold Dbl.val; rw [h0]; simp
    rw [vb] at this
    have : (b : ℚ) ≠ 0 := by exact_mod_cast (by omega : b ≠ 0)
    contradiction
  rw [val_div _ _ hbman, vB, va, vb]


/-! ## Arrays as lists -/

theorem getD_append_cons (A : List Int) (x : Int) (C : List Int) :
    (A ++ x :: C).getD A.length 0 = x := by
  rw [List.getD_eq_getElem?_getD, List.getElem?_append_right (le_refl _)]
  simp

theorem set_append_cons (A : List Int) (x y : Int) (C : List Int) :
    (A ++ x :: C).set A.length y = A ++ y :: C := by
  simp [List.set_append]

/-- Swapping two different positions of an array given by its pieces. -/
theorem swap_pieces (A : List Int) (h : Int) (B : List Int) (x : Int) (C : List Int) :
    swap (A ++ h :: (B ++ x :: C)) (A.length + 1 + B.length) A.length = A ++ x :: (B ++ h :: C) ∧
    swap (A ++ h :: (B ++ x :: C)) A.length (A.length + 1 + B.length) = A ++ x :: (B ++ h :: C) := by
  have e1 : A ++ h :: (B ++ x :: C) = (A ++ h :: B) ++ x :: C := by simp
  have l1 : (A ++ h :: B).length = A.length + 1 + B.length := by simp; omega
  have g1 : (A ++ h :: (B ++ x :: C)).getD (A.length + 1 + B.length) 0 = x := by
    rw [e1, ← l1]; exact getD_append_cons _ _ _
  have g2 : (A ++ h :: (B ++ x :: C)).getD A.length 0 = h := getD_append_cons _ _ _
  unfold swap
  rw [g1, g2]
  constructor
  · rw [e1, ← l1, set_append_cons]
    have : (A ++ h :: B) ++ h :: C = A ++ h :: (B ++ h :: C) := by simp
    rw [this, set_append_cons]
  · rw [set_append_cons]
    have e2 : A ++ x :: (B ++ x :: C) = (A ++ x :: B) ++ x :: C := by simp
    have l2 : (A ++ x :: B).length = A.length + 1 + B.length := by simp; omega
    rw [e2, ← l2, set_append_cons]; simp

theorem swap_self (A : List Int) (x : Int) (C : List Int) :
    swap (A ++ x :: C) A.length A.length = A ++ x :: C := by
  unfold swap
  rw [getD_append_cons, set_append_cons, set_append_cons]

/-! ## Insertion sort -/

/-- The inner loop moves the element at position `j` down through the prefix: on
the reversed prefix this is an ordered insertion. -/
theorem insertionSortInner_eq : ∀ (P : List Int) (x : Int) (R : List Int),
    insertionSortInner (P.reverse ++ x :: R) P.length
      = (List.orderedInsert (· ≥ ·) x P).reverse ++ R
  | [], x, R => by simp [insertionSortInner]
  | a :: P, x, R => by
    have e : (a :: P).reverse ++ x :: R = P.reverse ++ a :: ([] ++ x :: R) := by simp
    have hl : P.reverse.length = P.length := List.length_reverse P
    have g1 : ((a :: P).reverse ++ x :: R).getD P.length 0 = a := by
      rw [e, ← hl]; exact getD_append_cons _ _ _
    have g2 : ((a :: P).reverse ++ x :: R).getD (P.length + 1) 0 = x := by
      have : (a :: P).reverse.length = P.length + 1 := by simp
      rw [← this]; exact getD_append_cons _ _ _
    rw [List.length_cons, insertionSortInner, g1, g2]
    by_cases h : a > x
    · rw [if_pos h]
      have hs : swap ((a :: P).reverse ++ x :: R) (P.length + 1) P.length
          = P.reverse ++ x :: (a :: R) := by
        have := (swap_pieces P.reverse a [] x R).1
        rw [e]
        simpa [hl] using this
      rw [hs, insertionSortInner_eq P x (a :: R)]
      have : ¬ (x ≥ a) := by omega
      simp [List.orderedInsert, this]
    · rw [if_neg h]
      have : x ≥ a := by omega
      simp [List.orderedInsert, this]

theorem orderedInsert_append (x : Int) (Q : List Int) (hQ : ∀ q ∈ Q.head?, x ≥ q) :
    ∀ P : List Int, List.orderedInsert (· ≥ ·) x (P ++ Q) = List.orderedInsert (· ≥ ·) x P ++ Q
  | [] => by
    cases Q with
    | nil => simp
    | cons q Q =>
      have : x ≥ q := hQ q (by simp)
      simp [List.orderedInsert, this]
  | p :: P => by
    by_cases h : x ≥ p
    · simp [List.orderedInsert, h]
    · simp [List.orderedInsert, h, orderedInsert_append x Q hQ P]

theorem sorted_ge_reverse {S : List Int} (h : List.Sorted (· ≤ ·) S) :
    List.Sorted (· ≥ ·) S.reverse := by
  unfold List.Sorted at *
  rw [List.pairwise_reverse]
  exact h

theorem sorted_le_reverse {S : List Int} (h : List.Sorted (· ≥ ·) S) :
    List.Sorted (· ≤ ·) S.reverse := by
  unfold List.Sorted at *
  rw [List.pairwise_reverse]
  exact h

theorem insertionSortOuter_spec : ∀ (T L S R : List Int), List.Sorted (· ≤ ·) S →
    Fenced L (S ++ T) →
    ∃ S1, insertionSortOuter T.length (L ++ S ++ T ++ R) ((L.length + S.length : Nat) : Int)
        = L ++ S1 ++ R ∧ List.Sorted (· ≤ ·) S1 ∧ S1.Perm (S ++ T)
  | [], L, S, R, hS, _ => ⟨S, by simp [insertionSortOuter], hS, by simp⟩
  | x :: T, L, S, R, hS, hF => by
    have hx : ∀ q ∈ L.reverse.head?, x ≥ q := by
      intro q hq
      rw [List.head?_reverse] at hq
      exact hF q hq x (by simp)
    have harr : L ++ S ++ (x :: T) ++ R = (S.reverse ++ L.reverse).reverse ++ x :: (T ++ R) := by
      simp
    have hlen : (S.reverse ++ L.reverse).length = L.length + S.length := by
      simp; omega
    have hinner : insertionSortInner (L ++ S ++ (x :: T) ++ R) (L.length + S.length)
        = L ++ (List.orderedInsert (· ≥ ·) x S.reverse).reverse ++ (T ++ R) := by
      rw [harr, ← hlen, insertionSortInner_eq, orderedInsert_append x _ hx]
      simp
    have hS1 : List.Sorted (· ≤ ·) (List.orderedInsert (· ≥ ·) x S.reverse).reverse :=
      sorted_le_reverse ((sorted_ge_reverse hS).orderedInsert x _)
    have hP1 : (List.orderedInsert (· ≥ ·) x S.reverse).reverse.Perm (S ++ [x]) := by
      refine (List.reverse_perm _).trans ((List.perm_orderedInsert _ _ _).trans ?_)
      refine (List.Perm.cons x (List.reverse_perm S)).trans ?_
      exact (List.perm_append_singleton x S).symm
    have hF1 : Fenced L ((List.orderedInsert (· ≥ ·) x S.reverse).reverse ++ T) := by
      intro l hl m hm
      apply hF l hl m
      rcases List.mem_append.mp hm with h | h
      · have := hP1.subset h
        rcases List.mem_append.mp this with h1 | h1
        · exact List.mem_append_left _ h1
        · exact List.mem_append_right _ (by simp at h1; simp [h1])
      · exact List.mem_append_right _ (List.mem_cons_of_mem _ h)
    obtain ⟨S2, h1, h2, h3⟩ := insertionSortOuter_spec T L _ R hS1 hF1
    refine ⟨S2, ?_, h2, ?_⟩
    · rw [List.length_cons, insertionSortOuter, Int.toNat_natCast, hinner]
      have e1 : L ++ (List.orderedInsert (· ≥ ·) x S.reverse).reverse ++ (T ++ R)
          = L ++ (List.orderedInsert (· ≥ ·) x S.reverse).reverse ++ T ++ R := by simp
      have e2 : ((L.length + S.length : Nat) : Int) + 1
          = ((L.length + (List.orderedInsert (· ≥ ·) x S.reverse).reverse.length : Nat) : Int) := by
        simp [List.orderedInsert_length]; omega
      rw [e1, e2]; exact h1
    · refine h3.trans ?_
      refine (List.Perm.append_right T hP1).trans ?_
      simp

/-- Insertion sort on a fenced range sorts the range and leaves the rest alone. -/
theorem insertionSort_spec (L M R : List Int) (hF : Fenced L M) :
    insertionSort (L ++ M ++ R) (L.length : Int) ((L.length : Int) + (M.length : Int) - 1)
      = L ++ M.insertionSort (· ≤ ·) ++ R := by
  unfold insertionSort
  cases M with
  | nil => simp [insertionSortOuter]
  | cons m T =>
    have hn : ((L.length : Int) + ((m :: T).length : Int) - 1 - (L.length : Int)).toNat = T.length := by
      rw [List.length_cons]; push_cast; omega
    have hF1 : Fenced L ([m] ++ T) := by simpa using hF
    obtain ⟨S1, h1, h2, h3⟩ := insertionSortOuter_spec T L [m] R (List.sorted_singleton m) hF1
    have harr : L ++ m :: T ++ R = L ++ [m] ++ T ++ R := by simp
    have hi : (L.length : Int) + 1 = ((L.length + [m].length : Nat) : Int) := by simp
    rw [hn, harr, hi, h1]
    have : S1 = (m :: T).insertionSort (· ≤ ·) :=
      List.eq_of_perm_of_sorted (h3.trans (List.perm_insertionSort _ _).symm) h2
        (List.sorted_insertionSort _ _)
    rw [this]

/-! ## Partition -/

theorem partitionLoop_spec (pivot : Int) : ∀ (T L Lo Hi R : List Int),
    (∀ x ∈ Lo, x ≤ pivot) → (∀ x ∈ Hi, pivot < x) →
    ∃ Lo1 Hi1, partitionLoop pivot T.length (L ++ Lo ++ Hi ++ T ++ R)
        (((L.length + Lo.length : Nat) : Int) - 1) ((L.length + Lo.length + Hi.length : Nat) : Int)
        = (L ++ Lo1 ++ Hi1 ++ R, ((L.length + Lo1.length : Nat) : Int) - 1) ∧
      (∀ x ∈ Lo1, x ≤ pivot) ∧ (∀ x ∈ Hi1, pivot < x) ∧ (Lo1 ++ Hi1).Perm (Lo ++ Hi ++ T)
  | [], L, Lo, Hi, R, hLo, hHi => ⟨Lo, Hi, by simp [partitionLoop], hLo, hHi, by simp⟩
  | x :: T, L, Lo, Hi, R, hLo, hHi => by
    have harr : L ++ Lo ++ Hi ++ (x :: T) ++ R = (L ++ Lo ++ Hi) ++ x :: (T ++ R) := by simp
    have hlen : (L ++ Lo ++ Hi).length = L.length + Lo.length + Hi.length := by simp; omega
    have hget : (L ++ Lo ++ Hi ++ (x :: T) ++ R).getD (L.length + Lo.length + Hi.length) 0 = x := by
      rw [harr, ← hlen]; exact getD_append_cons _ _ _
    have hlow : (((L.length + Lo.length : Nat) : Int) - 1 + 1).toNat = L.length + Lo.length := by
      omega
    rw [List.length_cons, partitionLoop, Int.toNat_natCast, hget, hlow]
    by_cases hx : x ≤ pivot
    · rw [if_pos hx]
      have hLo1 : ∀ y ∈ Lo ++ [x], y ≤ pivot := by
        intro y hy
        rcases List.mem_append.mp hy with h | h
        · exact hLo y h
        · simp at h; omega
      cases Hi with
      | nil =>
        have hsw : swap (L ++ Lo ++ [] ++ (x :: T) ++ R) (L.length + Lo.length + ([] : List Int).length)
            (L.length + Lo.length) = L ++ (Lo ++ [x]) ++ [] ++ T ++ R := by
          have := swap_self (L ++ Lo) x (T ++ R)
          simpa using this
        obtain ⟨Lo1, Hi1, h1, h2, h3, h4⟩ := partitionLoop_spec pivot T L (Lo ++ [x]) [] R hLo1 hHi
        refine ⟨Lo1, Hi1, ?_, h2, h3, ?_⟩
        · rw [hsw, ← h1]
          congr 1 <;> simp <;> omega
        · refine h4.trans ?_
          simp
      | cons h Hi =>
        have hHi1 : ∀ y ∈ Hi ++ [h], pivot < y := by
          intro y hy
          apply hHi
          rcases List.mem_append.mp hy with h1 | h1
          · exact List.mem_cons_of_mem _ h1
          · simp at h1; simp [h1]
        have hsw : swap (L ++ Lo ++ (h :: Hi) ++ (x :: T) ++ R)
            (L.length + Lo.length + (h :: Hi).length) (L.length + Lo.length)
            = L ++ (Lo ++ [x]) ++ (Hi ++ [h]) ++ T ++ R := by
          have := (swap_pieces (L ++ Lo) h Hi x (T ++ R)).1
          have e1 : L ++ Lo ++ (h :: Hi) ++ (x :: T) ++ R = L ++ Lo ++ h :: (Hi ++ x :: (T ++ R)) := by
            simp
          have e2 : L.length + Lo.length + (h :: Hi).length = (L ++ Lo).length + 1 + Hi.length := by
            simp; omega
          have e3 : L.length + Lo.length = (L ++ Lo).length := by simp
          rw [e1, e2, e3, this]; simp
        obtain ⟨Lo1, Hi1, h1, h2, h3, h4⟩ :=
          partitionLoop_spec pivot T L (Lo ++ [x]) (Hi ++ [h]) R hLo1 hHi1
        refine ⟨Lo1, Hi1, ?_, h2, h3, ?_⟩
        · rw [hsw, ← h1]
          congr 1 <;> simp <;> omega
        · refine h4.trans ?_
          simp only [List.append_assoc, List.singleton_append, List.cons_append]
          refine List.Perm.append_left Lo ?_
          simp only [List.nil_append]
          have p1 : (Hi ++ h :: T).Perm (h :: (Hi ++ T)) := List.perm_middle
          have p2 : (Hi ++ x :: T).Perm (x :: (Hi ++ T)) := List.perm_middle
          exact ((p1.cons x).trans (List.Perm.swap h x _)).trans (p2.cons h).symm
    · rw [if_neg hx]
      have hHi1 : ∀ y ∈ Hi ++ [x], pivot < y := by
        intro y hy
        rcases List.mem_append.mp hy with h | h
        · exact hHi y h
        · simp at h; omega
      obtain ⟨Lo1, Hi1, h1, h2, h3, h4⟩ := partitionLoop_spec pivot T L Lo (Hi ++ [x]) R hLo hHi1
      refine ⟨Lo1, Hi1, ?_, h2, h3, ?_⟩
      · have e : L ++ Lo ++ Hi ++ (x :: T) ++ R = L ++ Lo ++ (Hi ++ [x]) ++ T ++ R := by simp
        rw [e, ← h1]
        congr 1; simp; omega
      · refine h4.trans ?_
        simp

/-- The postcondition of `partition` on an array given by its pieces. -/
theorem partition_spec (L M : List Int) (pivot : Int) (R : List Int) :
    ∃ Lo Hi, partition (L ++ M ++ pivot :: R) (L.length : Int) ((L.length : Int) + (M.length : Int))
        = (L ++ Lo ++ pivot :: (Hi ++ R), ((L.length + Lo.length : Nat) : Int)) ∧
      (∀ x ∈ Lo, x ≤ pivot) ∧ (∀ x ∈ Hi, pivot < x) ∧ (Lo ++ Hi).Perm M := by
  have hend : ((L.length : Int) + (M.length : Int)).toNat = (L ++ M).length := by
    simp; omega
  have hpiv : (L ++ M ++ pivot :: R).getD ((L.length : Int) + (M.length : Int)).toNat 0 = pivot := by
    rw [hend]; exact getD_append_cons _ _ _
  obtain ⟨Lo, Hi, h1, h2, h3, h4⟩ := partitionLoop_spec pivot M L [] [] (pivot :: R)
    (by simp) (by simp)
  have hn : ((L.length : Int) + (M.length : Int) - (L.length : Int)).toNat = M.length := by omega
  have harr : L ++ M ++ pivot :: R = L ++ [] ++ [] ++ M ++ pivot :: R := by simp
  have hlow : (L.length : Int) - 1 = ((L.length + ([] : List Int).length : Nat) : Int) - 1 := by simp
  have hi : (L.length : Int)
      = ((L.length + ([] : List Int).length + ([] : List Int).length : Nat) : Int) := by simp
  have hloop : partitionLoop pivot ((L.length : Int) + (M.length : Int) - (L.length : Int)).toNat
      (L ++ M ++ pivot :: R) ((L.length : Int) - 1) (L.length : Int)
      = (L ++ Lo ++ Hi ++ pivot :: R, ((L.length + Lo.length : Nat) : Int) - 1) := by
    rw [hn, harr, hlow]
    conv_lhs => rw [hi]
    exact h1
  have hlenM : M.length = Lo.length + Hi.length := by
    have := h4.length_eq
    simp at this; omega
  unfold partition
  simp only [hpiv, hloop]
  have hp1 : (((L.length + Lo.length : Nat) : Int) - 1 + 1).toNat = (L ++ Lo).length := by
    simp; omega
  have hp2 : ((L.length + Lo.length : Nat) : Int) - 1 + 1 = ((L.length + Lo.length : Nat) : Int) := by
    omega
  rw [hp1, hp2]
  cases Hi with
  | nil =>
    refine ⟨Lo, [], ?_, h2, by simp, by simpa using h4⟩
    have he : ((L.length : Int) + (M.length : Int)).toNat = (L ++ Lo).length := by
      simp at hlenM ⊢; omega
    rw [he]
    have := swap_self (L ++ Lo) pivot R
    simpa using this
  | cons h Hi =>
    refine ⟨Lo, Hi ++ [h], ?_, h2, ?_, ?_⟩
    · have he : ((L.length : Int) + (M.length : Int)).toNat = (L ++ Lo).length + 1 + Hi.length := by
        simp at hlenM ⊢; omega
      rw [he]
      have := (swap_pieces (L ++ Lo) h Hi pivot R).2
      have e1 : L ++ Lo ++ (h :: Hi) ++ pivot :: R = L ++ Lo ++ h :: (Hi ++ pivot :: R) := by simp
      rw [e1, this]; simp
    · intro y hy
      apply h3
      rcases List.mem_append.mp hy with h1 | h1
      · exact List.mem_cons_of_mem _ h1
      · simp at h1; simp [h1]
    · refine List.Perm.trans ?_ h4
      refine List.Perm.append_left Lo ?_
      exact (List.perm_append_singleton h Hi)

/-! ## The hybrid sorter -/

theorem bind_eq_returns {α β : Type} {x : Outcome α} {f : α → Outcome β} {b : β}
    (h : x.bind f = .returns b) : ∃ a, x = .returns a ∧ f a = .returns b := by
  cases x with
  | returns a => exact ⟨a, rfl, h⟩
  | badArrayNewLength => simp [Outcome.bind] at h
  | outOfBounds => simp [Outcome.bind] at h
  | outOfFuel => simp [Outcome.bind] at h
  | undefined => simp [Outcome.bind] at h

theorem heapSort_spec (L M R : List Int) :
    heapSort (L ++ M ++ R) (L.length : Int) ((L.length : Int) + (M.length : Int) - 1)
      = L ++ M.insertionSort (· ≤ ·) ++ R := by
  unfold heapSort
  have e1 : ((L.length : Int) + (M.length : Int) - 1 + 1 - (L.length : Int)).toNat = M.length := by
    omega
  have e2 : ((L.length : Int) + (M.length : Int) - 1 + 1).toNat = (L ++ M).length := by
    simp; omega
  rw [Int.toNat_natCast, e1, e2]
  simp [List.append_assoc]

/-- Sorted pieces around a pivot form the sorted range. -/
theorem sorted_pivot (Lo Hi M : List Int) (pivot : Int) (hLo : ∀ x ∈ Lo, x ≤ pivot)
    (hHi : ∀ x ∈ Hi, pivot < x) (hP : (Lo ++ Hi).Perm M) :
    Lo.insertionSort (· ≤ ·) ++ pivot :: Hi.insertionSort (· ≤ ·)
      = (M ++ [pivot]).insertionSort (· ≤ ·) := by
  apply List.eq_of_perm_of_sorted (r := (· ≤ ·))
  · refine List.Perm.trans ?_ (List.perm_insertionSort _ _).symm
    refine List.Perm.trans ?_ (List.Perm.append_right [pivot] hP)
    refine (List.Perm.append (List.perm_insertionSort _ Lo)
      ((List.perm_insertionSort _ Hi).cons pivot)).trans ?_
    simp only [List.append_assoc]
    refine List.Perm.append_left Lo ?_
    exact (List.perm_append_singleton pivot Hi).symm
  · unfold List.Sorted
    rw [List.pairwise_append]
    refine ⟨List.sorted_insertionSort _ _, ?_, ?_⟩
    · rw [List.pairwise_cons]
      refine ⟨?_, List.sorted_insertionSort _ _⟩
      intro y hy
      have := hHi y ((List.perm_insertionSort _ Hi).subset hy)
      omega
    · intro a ha b hb
      have h1 := hLo a ((List.perm_insertionSort _ Lo).subset ha)
      rcases List.mem_cons.mp hb with rfl | hb
      · exact h1
      · have := hHi b ((List.perm_insertionSort _ Hi).subset hb)
        omega
  · exact List.sorted_insertionSort _ _

/-- Whenever `introSort` returns on a fenced range, the range is sorted and the
rest of the array is untouched. -/
theorem introSort_spec : ∀ (fuel : Nat) (L M R : List Int) (depth : Int) (out : List Int),
    Fenced L M →
    introSort fuel (L ++ M ++ R) (L.length : Int) ((L.length : Int) + (M.length : Int) - 1) depth
      = .returns out →
    out = L ++ M.insertionSort (· ≤ ·) ++ R
  | 0, _, _, _, _, _, _, h => by simp [introSort] at h
  | fuel + 1, L, M, R, depth, out, hF, h => by
    rw [introSort] at h
    split_ifs at h with h1 h2
    · rw [insertionSort_spec L M R hF] at h
      exact (Outcome.returns.inj h).symm
    · rw [heapSort_spec] at h
      exact (Outcome.returns.inj h).symm
    · -- the range is not empty: its last element is the pivot
      have hM : M ≠ [] := by
        intro h0; subst h0; simp [insertionSortSize] at h1
      obtain ⟨M1, pivot, rfl⟩ : ∃ M1 pivot, M = M1 ++ [pivot] :=
        ⟨M.dropLast, M.getLast hM, (List.dropLast_append_getLast hM).symm⟩
      have harr : L ++ (M1 ++ [pivot]) ++ R = L ++ M1 ++ pivot :: R := by simp
      have hend : (L.length : Int) + ((M1 ++ [pivot]).length : Int) - 1
          = (L.length : Int) + (M1.length : Int) := by
        rw [List.length_append, List.length_singleton]; push_cast; omega
      rw [harr, hend] at h
      obtain ⟨Lo, Hi, hp, hLo, hHi, hP⟩ := partition_spec L M1 pivot R
      rw [hp] at h
      simp only [] at h
      have hlen : M1.length = Lo.length + Hi.length := by
        have := hP.length_eq; simp at this; omega
      have hFL : Fenced L Lo := by
        intro l hl m hm
        exact hF l hl m (List.mem_append_left _ (hP.subset (List.mem_append_left _ hm)))
      have hFR : ∀ Lo1 : List Int, Fenced (L ++ Lo1 ++ [pivot]) Hi := by
        intro Lo1 l hl m hm
        simp at hl
        have := hHi m hm
        omega
      -- the two recursive calls, whatever their order
      have left : ∀ (R1 out1 : List Int),
          introSort fuel (L ++ Lo ++ R1) (L.length : Int)
            (((L.length + Lo.length : Nat) : Int) - 1) (depth + 1) = .returns out1 →
          out1 = L ++ Lo.insertionSort (· ≤ ·) ++ R1 := by
        intro R1 out1 hc
        have e : ((L.length + Lo.length : Nat) : Int) - 1
            = (L.length : Int) + (Lo.length : Int) - 1 := by push_cast; ring
        rw [e] at hc
        exact introSort_spec fuel L Lo R1 (depth + 1) out1 hFL hc
      have right : ∀ (Lo1 out1 : List Int), Lo1.length = Lo.length →
          introSort fuel (L ++ Lo1 ++ pivot :: (Hi ++ R)) (((L.length + Lo.length : Nat) : Int) + 1)
            ((L.length : Int) + (M1.length : Int)) (depth + 1) = .returns out1 →
          out1 = L ++ Lo1 ++ pivot :: (Hi.insertionSort (· ≤ ·) ++ R) := by
        intro Lo1 out1 hl hc
        have e1 : L ++ Lo1 ++ pivot :: (Hi ++ R) = (L ++ Lo1 ++ [pivot]) ++ Hi ++ R := by simp
        have e2 : ((L.length + Lo.length : Nat) : Int) + 1 = ((L ++ Lo1 ++ [pivot]).length : Int) := by
          simp [hl]; ring
        have e3 : (L.length : Int) + (M1.length : Int)
            = ((L ++ Lo1 ++ [pivot]).length : Int) + (Hi.length : Int) - 1 := by
          simp [hl, hlen]; ring
        rw [e1, e2, e3] at hc
        have := introSort_spec fuel (L ++ Lo1 ++ [pivot]) Hi R (depth + 1) out1 (hFR Lo1) hc
        rw [this]; simp
      have key := sorted_pivot Lo Hi M1 pivot hLo hHi hP
      split_ifs at h with h3
      · obtain ⟨a, ha, hb⟩ := bind_eq_returns h
        have ha1 := left (pivot :: (Hi ++ R)) a ha
        rw [ha1] at hb
        have hb1 := right (Lo.insertionSort (· ≤ ·)) out (List.length_insertionSort _ _) hb
        rw [hb1, ← key]; simp
      · obtain ⟨a, ha, hb⟩ := bind_eq_returns h
        have ha1 := right Lo a rfl ha
        rw [ha1] at hb
        have hb1 := left (pivot :: (Hi.insertionSort (· ≤ ·) ++ R)) out hb
        rw [hb1, ← key]; simp

/-- A call of `introSort` at depth at most `maxDepth` returns: the nesting of calls
is bounded by the depth cap. -/
theorem introSort_returns : ∀ (fuel : Nat) (arr : List Int) (start end_ depth : Int),
    depth ≤ maxDepth → maxDepth - depth < (fuel : Int) →
    ∃ out, introSort fuel arr start end_ depth = .returns out
  | 0, _, _, _, depth, h1, h2 => by simp at h2; omega
  | fuel + 1, arr, start, end_, depth, h1, h2 => by
    have hf : depth ≠ maxDepth → maxDepth - (depth + 1) < (fuel : Int) := by
      intro hne; push_cast at h2; omega
    rw [introSort]
    by_cases c1 : end_ - start < insertionSortSize
    · rw [if_pos c1]; exact ⟨_, rfl⟩
    · rw [if_neg c1]
      by_cases c2 : depth = maxDepth
      · rw [if_pos c2]; exact ⟨_, rfl⟩
      · rw [if_neg c2]
        have hd : depth + 1 ≤ maxDepth := by omega
        simp only []
        split_ifs with c3
        · obtain ⟨a, ha⟩ := introSort_returns fuel (partition arr start end_).1 start
            ((partition arr start end_).2 - 1) (depth + 1) hd (hf c2)
          obtain ⟨b, hb⟩ := introSort_returns fuel a ((partition arr start end_).2 + 1) end_
            (depth + 1) hd (hf c2)
          exact ⟨b, by simp only [ha, Outcome.bind, hb]⟩
        · obtain ⟨a, ha⟩ := introSort_returns fuel (partition arr start end_).1
            ((partition arr start end_).2 + 1) end_ (depth + 1) hd (hf c2)
          obtain ⟨b, hb⟩ := introSort_returns fuel a start ((partition arr start end_).2 - 1)
            (depth + 1) hd (hf c2)
          exact ⟨b, by simp only [ha, Outcome.bind, hb]⟩


/-! ## The bucket container -/

theorem valid_new : bucketADT.new.Valid := by
  unfold bucketADT.Valid bucketADT.new
  simp

theorem contents_new : bucketADT.new.contents = [] := by
  unfold bucketADT.contents bucketADT.new
  simp

theorem valid_push_back (b : bucketADT) (v : Int) (h : b.Valid) : (b.push_back v).Valid := by
  obtain ⟨h1, h2, h3⟩ := h
  unfold bucketADT.push_back
  split_ifs with hc
  · exact ⟨h1, h2, fun hlt => absurd hc (by simp at hlt; omega)⟩
  · refine ⟨by simp [h1], by simp; omega, fun _ => ?_⟩
    exact h3 (by omega)

theorem take_succ_set : ∀ (l : List Int) (n : Nat) (v : Int), n < l.length →
    (l.set n v).take (n + 1) = l.take n ++ [v]
  | [], n, v, h => by simp at h
  | a :: l, 0, v, _ => by simp
  | a :: l, n + 1, v, h => by
    have := take_succ_set l n v (by simpa using h)
    simp [this]

theorem contents_push_back (b : bucketADT) (v : Int) (h : b.Valid) :
    (b.push_back v).contents = b.contents ++ [v] := by
  obtain ⟨h1, h2, h3⟩ := h
  unfold bucketADT.push_back bucketADT.contents
  split_ifs with hc
  · simp
  · have hlt : b.internalSize < b.arr.length := by omega
    have hext := h3 (by omega)
    simp only [hext, List.append_nil]
    exact take_succ_set b.arr b.internalSize v hlt

theorem convert_eq_contents (b : bucketADT) (h : b.Valid) : b.convert = b.contents := by
  obtain ⟨h1, h2, h3⟩ := h
  unfold bucketADT.convert bucketADT.contents
  split_ifs with hc
  · rfl
  · rw [h3 (by omega)]; simp

/-! ## Distribution -/

theorem distribute_spec (B mn mx : Int) : ∀ (input : List Int) (bs : List bucketADT),
    (∀ b ∈ bs, b.Valid) →
    (∀ v ∈ input, bucketIndex B v mn mx = .returns (bucketIndexValue B v mn mx)) →
    (∀ v ∈ input, bucketIndexValue B v mn mx < bs.length) →
    ∃ bs1, distribute B mn mx input bs = .returns bs1 ∧ bs1.length = bs.length ∧
      (∀ b ∈ bs1, b.Valid) ∧
      ∀ i, (bs1.map bucketADT.contents).getD i []
        = (bs.map bucketADT.contents).getD i []
          ++ input.filter (fun v => decide (bucketIndexValue B v mn mx = i))
  | [], bs, hv, _, _ => ⟨bs, rfl, rfl, hv, by simp⟩
  | v :: rest, bs, hv, hd, hi => by
    have hidx : bucketIndexValue B v mn mx < bs.length := hi v (List.mem_cons_self _ _)
    have hget : bs.get? (bucketIndexValue B v mn mx) = some bs[bucketIndexValue B v mn mx] := by
      simp [List.getElem?_eq_getElem hidx]
    have hvb : (bs[bucketIndexValue B v mn mx]).Valid := hv _ (List.getElem_mem _)
    have hv1 : ∀ b ∈ bs.set (bucketIndexValue B v mn mx) ((bs[bucketIndexValue B v mn mx]).push_back v),
        b.Valid := by
      intro b hb
      rcases List.mem_or_eq_of_mem_set hb with h | h
      · exact hv b h
      · rw [h]; exact valid_push_back _ _ hvb
    have hi1 : ∀ w ∈ rest, bucketIndexValue B w mn mx
        < (bs.set (bucketIndexValue B v mn mx) ((bs[bucketIndexValue B v mn mx]).push_back v)).length := by
      intro w hw
      rw [List.length_set]
      exact hi w (List.mem_cons_of_mem _ hw)
    obtain ⟨bs1, h1, h2, h3, h4⟩ := distribute_spec B mn mx rest _ hv1
      (fun w hw => hd w (List.mem_cons_of_mem _ hw)) hi1
    refine ⟨bs1, ?_, ?_, h3, ?_⟩
    · rw [distribute, hd v (List.mem_cons_self _ _)]
      simp only [Outcome.bind, hget]
      exact h1
    · rw [h2, List.length_set]
    · intro i
      rw [h4 i, List.map_set, contents_push_back _ _ hvb]
      by_cases hc : bucketIndexValue B v mn mx = i
      · subst hc
        simp [List.getD_eq_getElem?_getD, List.getElem?_set, hidx]
      · simp [List.getD_eq_getElem?_getD, List.getElem?_set, hc]

/-- The buckets after distribution into `n` fresh buckets: bucket `i` holds, in
input order, the elements whose index is `i`. -/
theorem distribute_fresh (B mn mx : Int) (input : List Int) (n : Nat)
    (hd : ∀ v ∈ input, bucketIndex B v mn mx = .returns (bucketIndexValue B v mn mx))
    (hi : ∀ v ∈ input, bucketIndexValue B v mn mx < n) :
    ∃ bs1, distribute B mn mx input (List.replicate n bucketADT.new) = .returns bs1 ∧
      bs1.length = n ∧ (∀ b ∈ bs1, b.Valid) ∧
      bs1.map bucketADT.contents
        = (List.range n).map fun i => input.filter (fun v => decide (bucketIndexValue B v mn mx = i)) := by
  have hv : ∀ b ∈ List.replicate n bucketADT.new, b.Valid := by
    intro b hb
    rw [List.eq_of_mem_replicate hb]; exact valid_new
  obtain ⟨bs1, h1, h2, h3, h4⟩ := distribute_spec B mn mx input _ hv hd (by simpa using hi)
  rw [List.length_replicate] at h2
  refine ⟨bs1, h1, h2, h3, ?_⟩
  apply List.ext_getElem
  · simp [h2]
  · intro i hi1 hi2
    have hlt : i < n := by simpa using hi2
    have := h4 i
    rw [List.getD_eq_getElem?_getD, List.getElem?_eq_getElem hi1] at this
    simp only [Option.getD_some] at this
    rw [this]
    simp [List.getD_eq_getElem?_getD, hlt, contents_new]

/-- Whenever the distribution loop returns, it returns as many buckets as it was
given, and they satisfy the invariant of the container. -/
theorem distribute_valid (B mn mx : Int) : ∀ (input : List Int) (bs bs1 : List bucketADT),
    (∀ b ∈ bs, b.Valid) → distribute B mn mx input bs = .returns bs1 →
    bs1.length = bs.length ∧ ∀ b ∈ bs1, b.Valid
  | [], bs, bs1, hv, h => by
    rw [distribute] at h
    cases h
    exact ⟨rfl, hv⟩
  | v :: rest, bs, bs1, hv, h => by
    rw [distribute] at h
    obtain ⟨idx, _, h2⟩ := bind_eq_returns h
    cases hg : bs.get? idx with
    | none => rw [hg] at h2; cases h2
    | some b =>
      rw [hg] at h2
      have hb : b ∈ bs := List.get?_mem hg
      have hv1 : ∀ c ∈ bs.set idx (b.push_back v), c.Valid := by
        intro c hc
        rcases List.mem_or_eq_of_mem_set hc with h | h
        · exact hv c h
        · rw [h]; exact valid_push_back _ _ (hv b hb)
      obtain ⟨l1, l2⟩ := distribute_valid B mn mx rest _ bs1 hv1 h2
      exact ⟨by rw [l1, List.length_set], l2⟩

/-! ## Sorting a group of buckets -/

/-- From depth 0 and with more fuel than the depth cap, `introSort` on the range
`[0, n - 1]` of an array returns the array with its first `n` cells sorted. -/
theorem introSort_front (fuel : Nat) (hfuel : maxDepth < (fuel : Int)) (arr : List Int) (n : Nat)
    (hn : n ≤ arr.length) :
    introSort fuel arr 0 ((n : Int) - 1) 0
      = .returns ((arr.take n).insertionSort (· ≤ ·) ++ arr.drop n) := by
  obtain ⟨out, hout⟩ := introSort_returns fuel arr 0 ((n : Int) - 1) 0
    (by unfold maxDepth; omega) (by omega)
  rw [hout]
  have harr : arr = [] ++ arr.take n ++ arr.drop n := by simp
  have hlen : (arr.take n).length = n := List.length_take_of_le hn
  have h0 : (0 : Int) = (([] : List Int).length : Int) := by simp
  have he : (n : Int) - 1 = (([] : List Int).length : Int) + ((arr.take n).length : Int) - 1 := by
    simp [hlen]
  rw [harr, he] at hout
  conv at hout => lhs; arg 3; rw [h0]
  have := introSort_spec fuel [] (arr.take n) (arr.drop n) 0 out (by intro l hl; simp at hl) hout
  rw [this]; simp

theorem get?_middle (Pre : List bucketADT) (b : bucketADT) (Rest : List bucketADT) :
    (Pre ++ b :: Rest).get? Pre.length = some b := by
  rw [List.get?_eq_getElem?, List.getElem?_append_right (le_refl _)]
  simp

theorem set_middle (Pre : List bucketADT) (b b1 : bucketADT) (Rest : List bucketADT) :
    (Pre ++ b :: Rest).set Pre.length b1 = Pre ++ b1 :: Rest := by
  simp [List.set_append]

theorem individualBucketSortLoop_spec (fuel : Nat) (hfuel : maxDepth < (fuel : Int)) :
    ∀ (Mid Pre Post : List bucketADT) (result : List Int), (∀ b ∈ Mid, b.Valid) →
    ∃ Mid1, individualBucketSortLoop fuel Mid.length (Pre ++ Mid ++ Post) (Pre.length : Int) result
        = .returns (Pre ++ Mid1 ++ Post, result ++ (Mid.map bucketADT.sortedContents).flatten) ∧
      Mid1.length = Mid.length
  | [], Pre, Post, result, _ => ⟨[], by simp [individualBucketSortLoop], rfl⟩
  | b :: Mid, Pre, Post, result, hv => by
    obtain ⟨h1, h2, h3⟩ := hv b (List.mem_cons_self _ _)
    have hvb : b.Valid := ⟨h1, h2, h3⟩
    have harr0 : Pre ++ b :: Mid ++ Post = Pre ++ b :: (Mid ++ Post) := by simp
    have hget : (Pre ++ b :: Mid ++ Post).get? (Pre.length : Int).toNat = some b := by
      rw [harr0, Int.toNat_natCast]; exact get?_middle _ _ _
    have hnext : (Pre.length : Int) + 1 = (((Pre ++ [b]).length : Nat) : Int) := by simp
    rw [List.length_cons, individualBucketSortLoop]
    simp only [hget]
    unfold bucketADT.getInternalSize
    split_ifs with hc
    · have hs := introSort_front fuel hfuel b.arr b.internalSize (by omega)
      rw [hs]
      simp only [Outcome.bind]
      generalize hb1 : (bucketADT.mk b.extension b.internalSize
        ((b.arr.take b.internalSize).insertionSort (· ≤ ·) ++ b.arr.drop b.internalSize)) = b1
      have hset : (Pre ++ b :: Mid ++ Post).set (Pre.length : Int).toNat b1
          = (Pre ++ [b1]) ++ Mid ++ Post := by
        rw [harr0, Int.toNat_natCast, set_middle]; simp
      have hnext1 : (Pre.length : Int) + 1 = (((Pre ++ [b1]).length : Nat) : Int) := by simp
      obtain ⟨Mid1, i1, i2⟩ := individualBucketSortLoop_spec fuel hfuel Mid
        (Pre ++ [b1]) Post
        (result ++ ((b.arr.take b.internalSize).insertionSort (· ≤ ·)
          ++ b.arr.drop b.internalSize).take b.internalSize)
        (fun x hx => hv x (List.mem_cons_of_mem _ hx))
      refine ⟨b1 :: Mid1, ?_, by simp [i2]⟩
      rw [hset, hnext1, i1]
      have hlen : ((b.arr.take b.internalSize).insertionSort (· ≤ ·)).length = b.internalSize := by
        rw [List.length_insertionSort, List.length_take_of_le (by omega)]
      have hsc : b.sortedContents = (b.arr.take b.internalSize).insertionSort (· ≤ ·) := by
        unfold bucketADT.sortedContents bucketADT.contents
        rw [h3 hc]; simp
      have htake : ((b.arr.take b.internalSize).insertionSort (· ≤ ·)
          ++ b.arr.drop b.internalSize).take b.internalSize
          = (b.arr.take b.internalSize).insertionSort (· ≤ ·) := by
        rw [List.take_append_eq_append_take, hlen]; simp
      rw [htake, List.map_cons, List.flatten_cons, hsc]
      simp
    · have hs := introSort_front fuel hfuel b.convert b.convert.length le_rfl
      rw [hs]
      simp only [Outcome.bind]
      obtain ⟨Mid1, i1, i2⟩ := individualBucketSortLoop_spec fuel hfuel Mid (Pre ++ [b]) Post
        (result ++ ((b.convert.take b.convert.length).insertionSort (· ≤ ·)
          ++ b.convert.drop b.convert.length))
        (fun x hx => hv x (List.mem_cons_of_mem _ hx))
      refine ⟨b :: Mid1, ?_, by simp [i2]⟩
      have harr : Pre ++ b :: Mid ++ Post = (Pre ++ [b]) ++ Mid ++ Post := by simp
      rw [harr, hnext, i1]
      have hsc : b.sortedContents = b.convert.insertionSort (· ≤ ·) := by
        unfold bucketADT.sortedContents
        rw [convert_eq_contents b hvb]
      rw [List.map_cons, List.flatten_cons, hsc]
      simp

theorem individualBucketSort_spec (fuel : Nat) (hfuel : maxDepth < (fuel : Int))
    (Pre Mid Post : List bucketADT) (hv : ∀ b ∈ Mid, b.Valid) :
    ∃ Mid1, individualBucketSort fuel (Pre ++ Mid ++ Post) (Pre.length : Int)
        ((Pre.length : Int) + (Mid.length : Int))
        = .returns (Pre ++ Mid1 ++ Post, (Mid.map bucketADT.sortedContents).flatten) ∧
      Mid1.length = Mid.length := by
  obtain ⟨Mid1, h1, h2⟩ := individualBucketSortLoop_spec fuel hfuel Mid Pre Post [] hv
  refine ⟨Mid1, ?_, h2⟩
  unfold individualBucketSort
  have : ((Pre.length : Int) + (Mid.length : Int) - (Pre.length : Int)).toNat = Mid.length := by omega
  rw [this, h1]; simp

/-! ## Dispatch and gather -/

theorem groupLoop_done (bpt B : Int) (fuel : Nat) (start : Int) (h : B ≤ start) :
    groupLoop bpt B (fuel + 1) start = .returns [] := by
  rw [groupLoop, if_neg (by omega)]

/-- A start of a group is a multiple of the group size; the sum computed for it is
at most the first multiple of the group size that is not below `B`. -/
theorem group_sum_le {bpt B s : Int} (hbpt : 1 ≤ bpt) (hd : bpt ∣ s) (hs : s < B) :
    s + bpt ≤ ((B - 1) / bpt + 1) * bpt := by
  obtain ⟨q, rfl⟩ := hd
  have hq : q ≤ (B - 1) / bpt := by
    rw [Int.le_ediv_iff_mul_le (by omega), mul_comm]; omega
  have : (q + 1) * bpt ≤ ((B - 1) / bpt + 1) * bpt :=
    mul_le_mul_of_nonneg_right (by omega) (by omega)
  linarith

/-- The last sum that the group loop computes is the first multiple of the group
size that is not below `B`. -/
theorem group_sum_ge {bpt B s : Int} (hbpt : 1 ≤ bpt) (hd : bpt ∣ s) (hs : s < B)
    (hB : B ≤ s + bpt) : ((B - 1) / bpt + 1) * bpt ≤ s + bpt := by
  obtain ⟨q, rfl⟩ := hd
  have hq : (B - 1) / bpt ≤ q := by
    have : (B - 1) / bpt < q + 1 := by
      rw [Int.ediv_lt_iff_lt_mul (by omega)]; linarith
    omega
  have : ((B - 1) / bpt + 1) * bpt ≤ (q + 1) * bpt :=
    mul_le_mul_of_nonneg_right (by omega) (by omega)
  linarith

/-- With a positive group size and no `int` overflow in the sums
`start + bucketsPerThread`, the group loop ends, and gathering the groups in
submission order yields the sorted buckets in index order. -/
theorem dispatch_spec (fuel : Nat) (hfuel : maxDepth < (fuel : Int)) (bpt B : Int) (hbpt : 1 ≤ bpt)
    (hov : ((B - 1) / bpt + 1) * bpt ≤ INT_MAX) :
    ∀ (fuel1 : Nat) (Pre Todo : List bucketADT) (result : List Int),
    bpt ∣ (Pre.length : Int) →
    B = (Pre.length : Int) + (Todo.length : Int) → Todo.length < fuel1 → (∀ b ∈ Todo, b.Valid) →
    ∃ gs, groupLoop bpt B fuel1 (Pre.length : Int) = .returns gs ∧
      gather fuel gs (Pre ++ Todo) result
        = .returns (result ++ (Todo.map bucketADT.sortedContents).flatten)
  | 0, _, _, _, _, _, h, _ => by omega
  | fuel1 + 1, Pre, Todo, result, hdv, hB, hf, hv => by
    rcases Nat.eq_zero_or_pos Todo.length with h0 | hpos
    · have : Todo = [] := List.length_eq_zero.mp h0
      subst this
      refine ⟨[], groupLoop_done _ _ _ _ (by simp at hB; omega), ?_⟩
      simp [gather]
    · have hlt : (Pre.length : Int) < B := by omega
      have hsum : ¬ (Pre.length : Int) + bpt > INT_MAX := by
        have := group_sum_le hbpt hdv hlt
        omega
      rw [groupLoop, if_pos hlt, if_neg hsum]
      by_cases hc : B ≤ (Pre.length : Int) + bpt
      · -- last group: it ends at `numBuckets`
        have hend : (if (Pre.length : Int) + bpt > B then B else (Pre.length : Int) + bpt) = B := by
          split_ifs <;> omega
        obtain ⟨f2, hf2⟩ : ∃ f2, fuel1 = f2 + 1 := ⟨fuel1 - 1, by omega⟩
        rw [hf2, groupLoop_done _ _ _ _ hc]
        simp only [Outcome.bind, hend]
        refine ⟨_, rfl, ?_⟩
        obtain ⟨Mid1, h1, _⟩ := individualBucketSort_spec fuel hfuel Pre Todo [] hv
        rw [gather]
        have harr : Pre ++ Todo = Pre ++ Todo ++ [] := by simp
        rw [harr, hB, h1]
        simp [Outcome.bind, gather]
      · -- a full group, then the remaining ones
        have hend : (if (Pre.length : Int) + bpt > B then B else (Pre.length : Int) + bpt)
            = (Pre.length : Int) + bpt := by
          split_ifs <;> omega
        obtain ⟨k, hk⟩ : ∃ k : Nat, (k : Int) = bpt := ⟨bpt.toNat, by omega⟩
        have hkl : k < Todo.length := by omega
        have hsplit : Todo = Todo.take k ++ Todo.drop k := (List.take_append_drop k Todo).symm
        have hlk : (Todo.take k).length = k := List.length_take_of_le (by omega)
        obtain ⟨Mid1, h1, h2⟩ := individualBucketSort_spec fuel hfuel Pre (Todo.take k)
          (Todo.drop k) (fun b hb => hv b (List.mem_of_mem_take hb))
        have hB1 : B = ((Pre ++ Mid1).length : Int) + ((Todo.drop k).length : Int) := by
          rw [List.length_append, h2, hlk, List.length_drop]; push_cast; omega
        have hstart : (Pre.length : Int) + bpt = ((Pre ++ Mid1).length : Int) := by
          rw [List.length_append, h2, hlk]; push_cast; omega
        obtain ⟨gs, g1, g2⟩ := dispatch_spec fuel hfuel bpt B hbpt hov fuel1 (Pre ++ Mid1)
          (Todo.drop k)
          (result ++ ((Todo.take k).map bucketADT.sortedContents).flatten)
          (by rw [← hstart]; exact dvd_add hdv (dvd_refl _)) hB1
          (by rw [List.length_drop]; omega) (fun b hb => hv b (List.mem_of_mem_drop hb))
        rw [hend, hstart, g1]
        simp only [Outcome.bind]
        refine ⟨_, rfl, ?_⟩
        rw [gather]
        have harr : Pre ++ Todo = Pre ++ Todo.take k ++ Todo.drop k := by
          rw [List.append_assoc, List.take_append_drop]
        have hend2 : ((Pre ++ Mid1).length : Int) = (Pre.length : Int) + ((Todo.take k).length : Int) := by
          rw [List.length_append, h2]; push_cast; rfl
        rw [harr, hend2, h1]
        simp only [Outcome.bind]
        rw [g2]
        congr 1
        conv_rhs => rw [hsplit, List.map_append, List.flatten_append]
        simp

/-! ## The buckets in index order -/

theorem bucketIndex_lt {arr : List Int} (hr : ∀ v ∈ arr, InIntRange v)
    (hn : maxOf arr - minOf arr < 2 ^ 31) {B : Int} (hB1 : 1 ≤ B)
    (hB2 : B ≤ INT_MAX) {v : Int} (hv : v ∈ arr) :
    ((bucketIndexValue B v (minOf arr) (maxOf arr) : Nat) : Int) < B := by
  obtain ⟨n1, n2, n3, n4, n5⟩ := numerator_facts hr hn hv
  have hB3 : B < 2 ^ 31 := by unfold INT_MAX at hB2; omega
  rw [bucketIndex_eq_idxQ n1 n2 n3 n4 n5 (by omega) hB3]
  exact idxQ_lt n3 n4 n5 hB1 hB3

/-- When the spread of the input fits in an `int`, the index statement yields the
value of the `double` expression. -/
theorem bucketIndex_returns {arr : List Int} (hr : ∀ v ∈ arr, InIntRange v)
    (hn : maxOf arr - minOf arr < 2 ^ 31) {B : Int} (hB1 : 1 ≤ B)
    (hB2 : B ≤ INT_MAX) {v : Int} (hv : v ∈ arr) :
    bucketIndex B v (minOf arr) (maxOf arr)
      = .returns (bucketIndexValue B v (minOf arr) (maxOf arr)) := by
  obtain ⟨n1, n2, n3, n4, n5⟩ := numerator_facts hr hn hv
  have hlt := bucketIndex_lt hr hn hB1 hB2 hv
  unfold bucketIndex
  rw [if_neg (by rw [n1, n2]; omega), if_neg]
  unfold INT_MAX at hB2
  omega

theorem bucketIndex_mono {arr : List Int} (hr : ∀ v ∈ arr, InIntRange v)
    (hn : maxOf arr - minOf arr < 2 ^ 31) {B : Int} (hB1 : 0 ≤ B)
    (hB2 : B ≤ INT_MAX) {v w : Int} (hv : v ∈ arr) (hw : w ∈ arr) (hvw : v ≤ w) :
    bucketIndexValue B v (minOf arr) (maxOf arr) ≤ bucketIndexValue B w (minOf arr) (maxOf arr) := by
  obtain ⟨n1, n2, n3, n4, n5⟩ := numerator_facts hr hn hv
  obtain ⟨m1, m2, m3, m4, m5⟩ := numerator_facts hr hn hw
  have hB3 : B < 2 ^ 31 := by unfold INT_MAX at hB2; omega
  have e1 := bucketIndex_eq_idxQ n1 n2 n3 n4 n5 hB1 hB3
  have e2 := bucketIndex_eq_idxQ m1 m2 m3 m4 m5 hB1 hB3
  have hb : (0 : ℚ) < ((maxOf arr - minOf arr : Int) : ℚ) := by
    exact_mod_cast (by omega : 0 < maxOf arr - minOf arr)
  have hBq : (0 : ℚ) ≤ (B : ℚ) := by exact_mod_cast hB1
  have hvwq : ((v - minOf arr : Int) : ℚ) ≤ ((w - minOf arr : Int) : ℚ) := by
    exact_mod_cast (by omega : v - minOf arr ≤ w - minOf arr)
  have := idxQ_mono hBq hb hvwq
  rw [← e1, ← e2] at this
  exact_mod_cast this

set_option maxRecDepth 100000 in
/-- The computed index can be one less than the exact quotient: with 49 buckets,
`min = 0` and `max + 1 = 49`, the value 1 has the exact quotient `49 * 1 / 49 = 1`,
but `1.0 / 49.0` is rounded down and `49 * (1.0 / 49.0)` is below 1. -/
theorem bucketIndex_below_exact_quotient :
    bucketIndex 49 1 0 49 = .returns 0 ∧ (49 : Int) * (1 - 0) / (49 - 0) = 1 := by
  decide

theorem sum_ite_range (c k : Nat) : ∀ n : Nat,
    ((List.range n).map fun i => if k = i then c else 0).sum = if k < n then c else 0
  | 0 => by simp
  | n + 1 => by
    rw [List.range_succ, List.map_append, List.sum_append, sum_ite_range c k n]
    simp only [List.map_cons, List.map_nil, List.sum_cons, List.sum_nil, add_zero]
    split_ifs <;> omega

/-- The buckets together hold the input. -/
theorem flatten_filter_perm (f : Int → Nat) (n : Nat) (input : List Int)
    (h : ∀ v ∈ input, f v < n) :
    ((List.range n).map fun i => input.filter (fun v => decide (f v = i))).flatten.Perm input := by
  rw [List.perm_iff_count]
  intro a
  rw [List.count_flatten, List.map_map]
  have hterm : ∀ i, (List.count a ∘ fun i => input.filter (fun v => decide (f v = i))) i
      = if f a = i then List.count a input else 0 := by
    intro i
    simp only [Function.comp]
    split_ifs with hc
    · rw [List.count_filter (by simpa using hc)]
    · apply List.count_eq_zero_of_not_mem
      intro hm
      have := (List.mem_filter.mp hm).2
      simp at this
      exact hc this
  rw [List.map_congr_left (fun i _ => hterm i), sum_ite_range]
  split_ifs with hc
  · rfl
  · symm
    apply List.count_eq_zero_of_not_mem
    intro hm
    exact hc (h a hm)

/-- Sorted buckets with a monotone index, in index order, form a sorted sequence. -/
theorem flatten_sorted (f : Int → Nat) (n : Nat) (input : List Int)
    (hmono : ∀ v ∈ input, ∀ w ∈ input, v ≤ w → f v ≤ f w) :
    List.Sorted (· ≤ ·) ((List.range n).map fun i =>
      (input.filter (fun v => decide (f v = i))).insertionSort (· ≤ ·)).flatten := by
  unfold List.Sorted
  rw [List.pairwise_flatten]
  constructor
  · intro l hl
    obtain ⟨i, _, rfl⟩ := List.mem_map.mp hl
    exact List.sorted_insertionSort _ _
  · rw [List.pairwise_map]
    refine List.Pairwise.imp ?_ (List.pairwise_lt_range n)
    intro i j hij x hx y hy
    have hx1 := List.mem_filter.mp ((List.perm_insertionSort _ _).subset hx)
    have hy1 := List.mem_filter.mp ((List.perm_insertionSort _ _).subset hy)
    have fx : f x = i := by simpa using hx1.2
    have fy : f y = j := by simpa using hy1.2
    by_contra hc
    have := hmono y hy1.1 x hx1.1 (by omega)
    omega

theorem flatten_buckets_eq (f : Int → Nat) (n : Nat) (input : List Int)
    (h : ∀ v ∈ input, f v < n) (hmono : ∀ v ∈ input, ∀ w ∈ input, v ≤ w → f v ≤ f w) :
    ((List.range n).map fun i =>
      (input.filter (fun v => decide (f v = i))).insertionSort (· ≤ ·)).flatten
      = input.insertionSort (· ≤ ·) := by
  apply List.eq_of_perm_of_sorted (r := (· ≤ ·)) _ (flatten_sorted f n input hmono)
    (List.sorted_insertionSort _ _)
  refine List.Perm.trans ?_ ((flatten_filter_perm f n input h).trans
    (List.perm_insertionSort _ _).symm)
  rw [List.perm_iff_count]
  intro a
  rw [List.count_flatten, List.count_flatten, List.map_map, List.map_map]
  congr 1
  apply List.map_congr_left
  intro i _
  simp only [Function.comp]
  exact (List.perm_insertionSort _ _).count_eq a

/-! ## The sort entry point -/

theorem distribute_bucketSort {arr : List Int} (hr : ∀ v ∈ arr, InIntRange v)
    (hn : maxOf arr - minOf arr < 2 ^ 31) {B : Int} (hB1 : 1 ≤ B) (hB2 : B ≤ INT_MAX) :
    ∃ bs1, distribute B (minOf arr) (maxOf arr) arr (List.replicate B.toNat bucketADT.new)
        = .returns bs1 ∧ (bs1.length : Int) = B ∧ (∀ b ∈ bs1, b.Valid) ∧
      bs1.map bucketADT.contents = ((List.range B.toNat).map fun i =>
        arr.filter (fun v => decide (bucketIndexValue B v (minOf arr) (maxOf arr) = i))) ∧
      (bs1.map bucketADT.sortedContents).flatten = arr.insertionSort (· ≤ ·) := by
  have hidx : ∀ v ∈ arr, bucketIndexValue B v (minOf arr) (maxOf arr) < B.toNat := by
    intro v hv
    have := bucketIndex_lt hr hn hB1 hB2 hv
    omega
  obtain ⟨bs1, h1, h2, h3, h4⟩ := distribute_fresh B (minOf arr) (maxOf arr) arr B.toNat
    (fun v hv => bucketIndex_returns hr hn hB1 hB2 hv) hidx
  refine ⟨bs1, h1, by omega, h3, h4, ?_⟩
  have hsc : bs1.map bucketADT.sortedContents
      = (bs1.map bucketADT.contents).map (fun l => l.insertionSort (· ≤ ·)) := by
    rw [List.map_map]; rfl
  rw [hsc, h4, List.map_map]
  exact flatten_buckets_eq (fun v => bucketIndexValue B v (minOf arr) (maxOf arr)) B.toNat arr hidx
    (fun v hv w hw hvw => bucketIndex_mono hr hn (by omega) hB2 hv hw hvw)

/-- When the spread `max + 1 - min` of the input fits in an `int`, the group size
is positive and no sum `start + bucketsPerThread` overflows, `bucketSort`
returns the sorted input. -/
theorem bucketSort_eq (fuel processorCount : Nat) (arr : List Int) (B : Int)
    (hr : ∀ v ∈ arr, InIntRange v) (hn : maxOf arr - minOf arr < 2 ^ 31)
    (hB1 : 1 ≤ B) (hB2 : B ≤ INT_MAX)
    (hW : processorCount = 0 ∨ (1 ≤ processorCount ∧ (processorCount : Int) ≤ B ∧
      ((B - 1) / (B / (processorCount : Int)) + 1) * (B / (processorCount : Int)) ≤ INT_MAX))
    (hf1 : maxDepth < (fuel : Int)) (hf2 : B < (fuel : Int)) :
    bucketSort fuel processorCount arr B = .returns (arr.insertionSort (· ≤ ·)) := by
  obtain ⟨bs1, h1, h2, h3, _, h5⟩ := distribute_bucketSort hr hn hB1 hB2
  unfold bucketSort
  rw [if_neg (by omega)]
  simp only [h1, Outcome.bind]
  rcases hW with hW | ⟨hW1, hW2, hov⟩
  · rw [if_pos hW]
    obtain ⟨Mid1, i1, _⟩ := individualBucketSort_spec fuel hf1 [] bs1 [] h3
    have i2 : individualBucketSort fuel bs1 0 B
        = .returns ([] ++ Mid1 ++ [], (bs1.map bucketADT.sortedContents).flatten) := by
      have := i1
      simp only [List.nil_append, List.append_nil, List.length_nil, Nat.cast_zero, zero_add,
        h2] at this
      simpa using this
    rw [i2, h5]
  · rw [if_neg (by omega)]
    have hbpt : 1 ≤ B / (processorCount : Int) := by
      rw [Int.le_ediv_iff_mul_le (by omega)]; omega
    obtain ⟨gs, g1, g2⟩ := dispatch_spec fuel hf1 (B / (processorCount : Int)) B hbpt hov fuel
      [] bs1 [] (by simp) (by simp [h2]) (by omega) h3
    simp only [List.length_nil, Nat.cast_zero, List.nil_append] at g1 g2
    rw [g1]
    simp only []
    rw [g2, h5]

/-- When a sum `start + bucketsPerThread` exceeds `INT_MAX`, the group loop runs
into the signed overflow. -/
theorem groupLoop_overflow (bpt B : Int) (hbpt : 1 ≤ bpt)
    (hov : INT_MAX < ((B - 1) / bpt + 1) * bpt) : ∀ (fuel : Nat) (start : Int),
    bpt ∣ start → start < B → B - start < (fuel : Int) * bpt →
    groupLoop bpt B fuel start = .undefined
  | 0, _, _, h1, h2 => by simp at h2; omega
  | fuel + 1, start, hd, hlt, hf => by
    rw [groupLoop, if_pos hlt]
    by_cases hs : start + bpt > INT_MAX
    · rw [if_pos hs]
    · rw [if_neg hs]
      have hlt2 : start + bpt < B := by
        by_contra hc
        have := group_sum_ge hbpt hd hlt (by omega)
        omega
      rw [groupLoop_overflow bpt B hbpt hov fuel (start + bpt) (dvd_add hd (dvd_refl _)) hlt2
        (by push_cast at hf; linarith)]
      rfl

/-- When the spread of the input fits in an `int` but a sum
`start + bucketsPerThread` exceeds `INT_MAX`, `bucketSort` runs into the signed
overflow after the distribution. -/
theorem bucketSort_overflow (fuel processorCount : Nat) (arr : List Int) (B : Int)
    (hr : ∀ v ∈ arr, InIntRange v) (hn : maxOf arr - minOf arr < 2 ^ 31)
    (hB1 : 1 ≤ B) (hB2 : B ≤ INT_MAX)
    (hW1 : 1 ≤ processorCount) (hW2 : (processorCount : Int) ≤ B)
    (hov : INT_MAX < ((B - 1) / (B / (processorCount : Int)) + 1) * (B / (processorCount : Int)))
    (hf2 : B < (fuel : Int)) :
    bucketSort fuel processorCount arr B = .undefined := by
  obtain ⟨bs1, h1, _⟩ := distribute_bucketSort hr hn hB1 hB2
  unfold bucketSort
  rw [if_neg (by omega)]
  simp only [h1, Outcome.bind]
  rw [if_neg (by omega)]
  have hbpt : 1 ≤ B / (processorCount : Int) := by
    rw [Int.le_ediv_iff_mul_le (by omega)]; omega
  have hfuel : B - 0 < (fuel : Int) * (B / (processorCount : Int)) := by
    have : (fuel : Int) * 1 ≤ (fuel : Int) * (B / (processorCount : Int)) :=
      mul_le_mul_of_nonneg_left hbpt (by omega)
    omega
  rw [groupLoop_overflow _ B hbpt hov fuel 0 (dvd_zero _) (by omega) hfuel]

/-! ## Termination of the hybrid sorter from any depth -/

theorem getD_mem_middle (A B C : List Int) (k : Nat) (h1 : A.length ≤ k)
    (h2 : k < A.length + B.length) : (A ++ B ++ C).getD k 0 ∈ B := by
  have hk : k - A.length < B.length := by omega
  rw [List.getD_eq_getElem?_getD, List.append_assoc, List.getElem?_append_right h1,
    List.getElem?_append_left hk, List.getElem?_eq_getElem hk]
  exact List.getElem_mem _

/-- An array cut at the ends of the range `[s, e]`, the last cell of the range apart. -/
theorem split_range (arr : List Int) (s e : Nat) (h1 : s ≤ e) (h2 : e < arr.length) :
    arr = arr.take s ++ (arr.drop s).take (e - s) ++ arr.getD e 0 :: arr.drop (e + 1) ∧
    (arr.take s).length = s ∧ ((arr.drop s).take (e - s)).length = e - s := by
  refine ⟨?_, List.length_take_of_le (by omega), ?_⟩
  · have e1 : arr.getD e 0 :: arr.drop (e + 1) = arr.drop e := by
      rw [List.getD_eq_getElem?_getD, List.getElem?_eq_getElem h2]
      simp
    have e2 : (arr.drop s).take (e - s) ++ arr.drop e = arr.drop s := by
      have : arr.drop e = (arr.drop s).drop (e - s) := by
        rw [List.drop_drop]; congr 1; omega
      rw [this, List.take_append_drop]
    rw [e1, List.append_assoc, e2, List.take_append_drop]
  · rw [List.length_take_of_le]
    rw [List.length_drop]; omega

/-! ## A group size of zero -/

theorem groupLoop_zero (B : Int) (hB : B ≤ INT_MAX) : ∀ (fuel : Nat) (start : Int), start < B →
    groupLoop 0 B fuel start = .outOfFuel
  | 0, _, _ => rfl
  | fuel + 1, start, h => by
    rw [groupLoop, if_pos h, add_zero, if_neg (by omega), groupLoop_zero B hB fuel start h]
    rfl

/-- With more workers than buckets the group size `numBuckets / processorCount`
is zero and the group loop never ends. -/
theorem bucketSort_diverges (fuel processorCount : Nat) (arr : List Int) (B : Int)
    (hr : ∀ v ∈ arr, InIntRange v) (hn : maxOf arr - minOf arr < 2 ^ 31)
    (hB1 : 1 ≤ B) (hB2 : B ≤ INT_MAX) (hW : B < (processorCount : Int)) :
    bucketSort fuel processorCount arr B = .outOfFuel := by
  obtain ⟨bs1, h1, _⟩ := distribute_bucketSort hr hn hB1 hB2
  unfold bucketSort
  rw [if_neg (by omega)]
  simp only [h1, Outcome.bind]
  rw [if_neg (by omega)]
  have hbpt : B / (processorCount : Int) = 0 := Int.ediv_eq_zero_of_lt (by omega) hW
  simp only [hbpt]
  rw [groupLoop_zero B hB2 fuel 0 (by omega)]

/-- When the distribution loop touches a bucket outside the bucket array, so does
`bucketSort`, whatever the fuel and the number of execution units. -/
theorem bucketSort_of_distribute_outOfBounds (fuel processorCount : Nat) (arr : List Int)
    (B : Int) (hB : 0 ≤ B)
    (h : distribute B (minOf arr) (maxOf arr) arr (List.replicate B.toNat bucketADT.new)
      = .outOfBounds) :
    bucketSort fuel processorCount arr B = .outOfBounds := by
  unfold bucketSort
  rw [if_neg (by omega)]
  simp only [h, Outcome.bind]

/-! ## The claims -/

set_option maxRecDepth 100000 in
/-- C1 (sortedness), at a failing input.  For the input
`[-1000000000, 1500000000]` and two buckets, `max + 1 - min = 2500000001` does
not fit in an `int`: `abs` receives `-1794967295` and the divisor is
`1794967295`, the element `1500000000` gets the numerator `1794967296` and the
index `2`, and the call touches `buckets[2]` outside the array of two buckets;
no sorted sequence is returned, whatever the number of execution units. -/
theorem bucketSort_wide_pair_out_of_bounds :
    ∀ fuel processorCount : Nat,
      bucketSort fuel processorCount [-1000000000, 1500000000] 2 = .outOfBounds :=
  fun fuel processorCount =>
    bucketSort_of_distribute_outOfBounds fuel processorCount [-1000000000, 1500000000] 2
      (by decide) (by decide)

set_option maxRecDepth 100000 in
/-- C2 (permutation and length), at a failing input.  For the input
`[1500000000, -1000000000, 0, 1400000000]` and four buckets the first element
gets the index `4` and is written to `buckets[4]`, outside the array of four
buckets: the call does not return a permutation of the input, whatever the
number of execution units. -/
theorem bucketSort_wide_input_loses_elements :
    ∀ fuel processorCount : Nat,
      bucketSort fuel processorCount [1500000000, -1000000000, 0, 1400000000] 4
        = .outOfBounds :=
  fun fuel processorCount =>
    bucketSort_of_distribute_outOfBounds fuel processorCount
      [1500000000, -1000000000, 0, 1400000000] 4 (by decide) (by decide)

/-- C3 (totality), at the failing input.  On a machine with four execution
units the call `bucketSort([5, 3, 3, 1, 4], 2)` never returns: the group size
is `2 / 4 = 0`, so the loop that creates the groups does not advance, whatever
the fuel. -/
theorem bucketSort_four_workers_two_buckets :
    ∀ fuel : Nat, bucketSort fuel 4 [5, 3, 3, 1, 4] 2 = .outOfFuel :=
  fun fuel => bucketSort_diverges fuel 4 [5, 3, 3, 1, 4] 2 (by decide) (by decide) (by decide)
    (by decide) (by decide)

/-- C4 (invalid configuration) fails as stated: with `bucketCount = 0` the empty
input is accepted and the empty sequence is returned, on a machine with four
execution units and on one whose count is unknown. -/
theorem bucketSort_zero_buckets_accepted :
    bucketSort 1 4 [] 0 = .returns [] ∧ bucketSort 1 0 [] 0 = .returns [] := by
  constructor <;> rfl

/-- C4 as amended.  A negative `bucketCount` makes the allocation of the bucket
array throw, before any element is distributed; `bucketCount = 0` is not
rejected: the empty input is returned as the empty sequence. -/
theorem bucketSort_invalid_config (fuel processorCount : Nat) (input : List Int) (B : Int)
    (hB : B < 0) :
    bucketSort fuel processorCount input B = .badArrayNewLength ∧
    bucketSort (fuel + 1) processorCount [] 0 = .returns [] := by
  constructor
  · unfold bucketSort
    rw [if_pos hB]
  · unfold bucketSort
    simp only [lt_irrefl, if_false, distribute, Outcome.bind, Int.toNat_zero, List.replicate_zero]
    split_ifs
    · rfl
    · simp [groupLoop, gather, Outcome.bind]

/-- Instance of the amended C4: a bucket count of `-1`. -/
theorem bucketSort_invalid_config_witness :
    (-1 : Int) < 0 ∧
    (bucketSort 57 4 [5, 3, 3, 1, 4] (-1) = .badArrayNewLength ∧
      bucketSort (57 + 1) 4 [] 0 = .returns []) :=
  ⟨by decide, bucketSort_invalid_config 57 4 [5, 3, 3, 1, 4] (-1) (by decide)⟩

/-- C5 (worker-count independence), at the failing input.  For the input `[7]`
and one bucket, a worker count of 1 and the single-threaded fallback both
return `[7]`, but with a worker count of 2 the call never returns. -/
theorem bucketSort_two_workers_one_bucket :
    bucketSort 57 1 [7] 1 = .returns [7] ∧ bucketSort 57 0 [7] 1 = .returns [7] ∧
    ∀ fuel : Nat, bucketSort fuel 2 [7] 1 = .outOfFuel :=
  ⟨bucketSort_eq 57 1 [7] 1 (by decide) (by decide) (by decide) (by decide) (by decide)
      (by decide) (by decide),
    bucketSort_eq 57 0 [7] 1 (by decide) (by decide) (by decide) (by decide) (by decide)
      (by decide) (by decide),
    fun fuel => bucketSort_diverges fuel 2 [7] 1 (by decide) (by decide) (by decide) (by decide)
      (by decide)⟩

set_option maxRecDepth 100000 in
/-- C6 (bucket-count independence), at a failing input.  For the input
`[1500000000, -1000000000, 0, 1400000000]` of length 4, neither the call with one
bucket nor the call with four buckets returns a sequence: the element
`1500000000` gets the index `1` with one bucket and the index `4` with four
buckets, in both cases the position just after the bucket array. -/
theorem bucketSort_wide_input_one_and_four_buckets :
    (∀ fuel processorCount : Nat,
      bucketSort fuel processorCount [1500000000, -1000000000, 0, 1400000000] 1
        = .outOfBounds) ∧
    (∀ fuel processorCount : Nat,
      bucketSort fuel processorCount [1500000000, -1000000000, 0, 1400000000] 4
        = .outOfBounds) ∧
    bucketIndex 1 1500000000 (minOf [1500000000, -1000000000, 0, 1400000000])
      (maxOf [1500000000, -1000000000, 0, 1400000000]) = .returns 1 :=
  ⟨fun fuel processorCount =>
      bucketSort_of_distribute_outOfBounds fuel processorCount
        [1500000000, -1000000000, 0, 1400000000] 1 (by decide) (by decide),
    fun fuel processorCount =>
      bucketSort_of_distribute_outOfBounds fuel processorCount
        [1500000000, -1000000000, 0, 1400000000] 4 (by decide) (by decide),
    by decide⟩

set_option maxRecDepth 100000 in
/-- C7 (full 32-bit value range), at the failing input.  For the input
`[INT_MIN, 0, INT_MAX]` the `long` values `max + 1 = 2 ^ 31`,
`0 - min = 2 ^ 31`, `INT_MAX - min = 2 ^ 32 - 1` and `max + 1 - min = 2 ^ 32` are
computed without overflow and are not negative, but `abs` does not leave them
unchanged: it takes an `int`, so it returns `-2147483648` for `0 - min`, `1` for
`INT_MAX - min` and `0` for `max + 1 - min`, and the index is a division by
zero. -/
theorem abs_changes_long_differences :
    maxOf [INT_MIN, 0, INT_MAX] = 2147483648 ∧ minOf [INT_MIN, 0, INT_MAX] = -2147483648 ∧
    wrapLong (0 - minOf [INT_MIN, 0, INT_MAX]) = 2147483648 ∧
    wrapLong (INT_MAX - minOf [INT_MIN, 0, INT_MAX]) = 4294967295 ∧
    wrapLong (maxOf [INT_MIN, 0, INT_MAX] - minOf [INT_MIN, 0, INT_MAX]) = 4294967296 ∧
    numerator 0 (minOf [INT_MIN, 0, INT_MAX]) = -2147483648 ∧
    numerator INT_MAX (minOf [INT_MIN, 0, INT_MAX]) = 1 ∧
    denominator (maxOf [INT_MIN, 0, INT_MAX]) (minOf [INT_MIN, 0, INT_MAX]) = 0 ∧
    bucketIndex 4 INT_MAX (minOf [INT_MIN, 0, INT_MAX]) (maxOf [INT_MIN, 0, INT_MAX])
      = .undefined := by
  decide

set_option maxRecDepth 100000 in
/-- C8 (bucket index in range), at a failing input.  For the input
`[1500000000, -1000000000, 0, 1400000000]` and four buckets the divisor is
`1794967295` instead of `max + 1 - min = 2500000001`, and the elements
`1500000000` and `1400000000` get the index `4 = B`, which is not in `[0, B - 1]`. -/
theorem bucketIndex_equals_bucket_count :
    wrapLong (maxOf [1500000000, -1000000000, 0, 1400000000]
      - minOf [1500000000, -1000000000, 0, 1400000000]) = 2500000001 ∧
    denominator (maxOf [1500000000, -1000000000, 0, 1400000000])
      (minOf [1500000000, -1000000000, 0, 1400000000]) = 1794967295 ∧
    bucketIndex 4 1500000000 (minOf [1500000000, -1000000000, 0, 1400000000])
      (maxOf [1500000000, -1000000000, 0, 1400000000]) = .returns 4 ∧
    bucketIndex 4 1400000000 (minOf [1500000000, -1000000000, 0, 1400000000])
      (maxOf [1500000000, -1000000000, 0, 1400000000]) = .returns 4 := by
  decide

set_option maxRecDepth 100000 in
/-- C9 (bucket index monotone in the value), at a failing input.  For the input
`[-1000000000, 1200000000, 1500000000]` and 100 buckets the element `1200000000`
gets the index `116` and the larger element `1500000000` gets the index `100`:
the numerators are `2094967296` and `1794967296`, the absolute values of the
differences `2200000000` and `2500000000` converted to `int`. -/
theorem bucketIndex_not_monotone :
    numerator 1200000000 (minOf [-1000000000, 1200000000, 1500000000]) = 2094967296 ∧
    numerator 1500000000 (minOf [-1000000000, 1200000000, 1500000000]) = 1794967296 ∧
    bucketIndex 100 1200000000 (minOf [-1000000000, 1200000000, 1500000000])
      (maxOf [-1000000000, 1200000000, 1500000000]) = .returns 116 ∧
    bucketIndex 100 1500000000 (minOf [-1000000000, 1200000000, 1500000000])
      (maxOf [-1000000000, 1200000000, 1500000000]) = .returns 100 := by
  decide

set_option maxRecDepth 100000 in
/-- C10 (distribution preserves the multiset), at a failing input.  For the input
`[0, 1400000000, -1000000000, 1500000000]` and four buckets the distribution loop
stores `0` in bucket 2 and then writes `1400000000` to `buckets[4]`, outside the
array of four buckets; the buckets do not end up holding the input. -/
theorem distribute_wide_input_out_of_bounds :
    bucketIndex 4 0 (minOf [0, 1400000000, -1000000000, 1500000000])
      (maxOf [0, 1400000000, -1000000000, 1500000000]) = .returns 2 ∧
    bucketIndex 4 1400000000 (minOf [0, 1400000000, -1000000000, 1500000000])
      (maxOf [0, 1400000000, -1000000000, 1500000000]) = .returns 4 ∧
    distribute 4 (minOf [0, 1400000000, -1000000000, 1500000000])
      (maxOf [0, 1400000000, -1000000000, 1500000000])
      [0, 1400000000, -1000000000, 1500000000]
      (List.replicate (4 : Int).toNat bucketADT.new) = .outOfBounds := by
  decide

/-- C12 (partition postcondition).  For `0 ≤ start ≤ end < len(arr)` the call
`partition(arr, start, end)` returns an index `p` in `[start, end]`; afterwards
`arr[p]` is the former `arr[end]`, the cells of `[start, p)` are `≤ arr[p]`, the
cells of `(p, end]` are `> arr[p]`, the range is a permutation of its former
contents and the cells outside it are unchanged. -/
theorem partition_postcondition (arr : List Int) (start end_ : Int) (h0 : 0 ≤ start)
    (h1 : start ≤ end_) (h2 : end_ < (arr.length : Int)) :
    start ≤ (partition arr start end_).2 ∧ (partition arr start end_).2 ≤ end_ ∧
    (partition arr start end_).1.length = arr.length ∧
    (partition arr start end_).1.getD (partition arr start end_).2.toNat 0
      = arr.getD end_.toNat 0 ∧
    (∀ k : Int, start ≤ k → k < (partition arr start end_).2 →
      (partition arr start end_).1.getD k.toNat 0
        ≤ (partition arr start end_).1.getD (partition arr start end_).2.toNat 0) ∧
    (∀ k : Int, (partition arr start end_).2 < k → k ≤ end_ →
      (partition arr start end_).1.getD (partition arr start end_).2.toNat 0
        < (partition arr start end_).1.getD k.toNat 0) ∧
    (((partition arr start end_).1.drop start.toNat).take (end_ - start + 1).toNat).Perm
      ((arr.drop start.toNat).take (end_ - start + 1).toNat) ∧
    (partition arr start end_).1.take start.toNat = arr.take start.toNat ∧
    (partition arr start end_).1.drop (end_ + 1).toNat = arr.drop (end_ + 1).toNat := by
  obtain ⟨s, hs⟩ : ∃ s : Nat, (s : Int) = start := ⟨start.toNat, by omega⟩
  obtain ⟨e, he⟩ : ∃ e : Nat, (e : Int) = end_ := ⟨end_.toNat, by omega⟩
  subst hs he
  have hse : s ≤ e := by omega
  have hel : e < arr.length := by omega
  obtain ⟨harr, hL, hM⟩ := split_range arr s e hse hel
  generalize hLdef : arr.take s = L at harr hL
  generalize hMdef : (arr.drop s).take (e - s) = M at harr hM
  generalize hpdef : arr.getD e 0 = pivot at harr
  generalize hRdef : arr.drop (e + 1) = R at harr
  obtain ⟨Lo, Hi, hp, hLo, hHi, hP⟩ := partition_spec L M pivot R
  have hlen : M.length = Lo.length + Hi.length := by
    have := hP.length_eq; simp at this; omega
  have hcall : partition arr (s : Int) (e : Int)
      = (L ++ Lo ++ pivot :: (Hi ++ R), ((L.length + Lo.length : Nat) : Int)) := by
    have e1 : ((e : Nat) : Int) = (L.length : Int) + (M.length : Int) := by
      rw [hL, hM]; omega
    rw [e1]
    conv_lhs => rw [harr, ← hL]
    exact hp
  have hpiv : (L ++ Lo ++ pivot :: (Hi ++ R)).getD (L.length + Lo.length) 0 = pivot := by
    have := getD_append_cons (L ++ Lo) pivot (Hi ++ R)
    simpa using this
  have hseg : (arr.drop s).take (e - s + 1) = M ++ [pivot] := by
    rw [harr, List.append_assoc, List.drop_left' hL, ← List.singleton_append,
      ← List.append_assoc]
    apply List.take_left'
    simp [hM]
  have hseg1 : ((L ++ Lo ++ pivot :: (Hi ++ R)).drop s).take (e - s + 1) = Lo ++ pivot :: Hi := by
    have e1 : L ++ Lo ++ pivot :: (Hi ++ R) = L ++ ((Lo ++ pivot :: Hi) ++ R) := by simp
    rw [e1, List.drop_left' hL]
    apply List.take_left'
    simp; omega
  rw [hcall]
  simp only [Int.toNat_natCast]
  have ht1 : ((e : Int) - (s : Int) + 1).toNat = e - s + 1 := by omega
  have ht2 : ((e : Int) + 1).toNat = e + 1 := by omega
  rw [ht1, ht2, hpiv, hseg, hseg1]
  refine ⟨by omega, by omega, ?_, hpdef.symm, ?_, ?_, ?_, ?_, ?_⟩
  · rw [harr]; simp; omega
  · intro k hk1 hk2
    apply hLo
    have := getD_mem_middle L Lo (pivot :: (Hi ++ R)) k.toNat (by omega) (by omega)
    simpa using this
  · intro k hk1 hk2
    apply hHi
    have := getD_mem_middle (L ++ Lo ++ [pivot]) Hi R k.toNat
      (by simp; omega) (by simp; omega)
    simpa using this
  · refine List.Perm.trans ?_ (List.Perm.append_right [pivot] hP)
    simp only [List.append_assoc]
    refine List.Perm.append_left Lo ?_
    exact (List.perm_append_singleton pivot Hi).symm
  · rw [hLdef, List.append_assoc]; exact List.take_left' hL
  · have e1 : L ++ Lo ++ pivot :: (Hi ++ R) = (L ++ Lo ++ pivot :: Hi) ++ R := by simp
    rw [e1, hRdef]
    apply List.drop_left'
    simp; omega

/-- Instance of C12: an array of eight cells, partitioned on the range `[1, 6]`. -/
theorem partition_postcondition_witness :
    (0 : Int) ≤ 1 ∧ (1 : Int) ≤ 6 ∧ (6 : Int) < (([3, 1, 4, 1, 5, 9, 2, 6] : List Int).length : Int) ∧
    ((1 : Int) ≤ (partition [3, 1, 4, 1, 5, 9, 2, 6] 1 6).2 ∧
    (partition [3, 1, 4, 1, 5, 9, 2, 6] 1 6).2 ≤ 6 ∧
    (partition [3, 1, 4, 1, 5, 9, 2, 6] 1 6).1.length = ([3, 1, 4, 1, 5, 9, 2, 6] : List Int).length ∧
    (partition [3, 1, 4, 1, 5, 9, 2, 6] 1 6).1.getD (partition [3, 1, 4, 1, 5, 9, 2, 6] 1 6).2.toNat 0
      = ([3, 1, 4, 1, 5, 9, 2, 6] : List Int).getD (6 : Int).toNat 0 ∧
    (∀ k : Int, 1 ≤ k → k < (partition [3, 1, 4, 1, 5, 9, 2, 6] 1 6).2 →
      (partition [3, 1, 4, 1, 5, 9, 2, 6] 1 6).1.getD k.toNat 0
        ≤ (partition [3, 1, 4, 1, 5, 9, 2, 6] 1 6).1.getD
            (partition [3, 1, 4, 1, 5, 9, 2, 6] 1 6).2.toNat 0) ∧
    (∀ k : Int, (partition [3, 1, 4, 1, 5, 9, 2, 6] 1 6).2 < k → k ≤ 6 →
      (partition [3, 1, 4, 1, 5, 9, 2, 6] 1 6).1.getD
          (partition [3, 1, 4, 1, 5, 9, 2, 6] 1 6).2.toNat 0
        < (partition [3, 1, 4, 1, 5, 9, 2, 6] 1 6).1.getD k.toNat 0) ∧
    (((partition [3, 1, 4, 1, 5, 9, 2, 6] 1 6).1.drop (1 : Int).toNat).take
        ((6 : Int) - 1 + 1).toNat).Perm
      ((([3, 1, 4, 1, 5, 9, 2, 6] : List Int).drop (1 : Int).toNat).take ((6 : Int) - 1 + 1).toNat) ∧
    (partition [3, 1, 4, 1, 5, 9, 2, 6] 1 6).1.take (1 : Int).toNat
      = ([3, 1, 4, 1, 5, 9, 2, 6] : List Int).take (1 : Int).toNat ∧
    (partition [3, 1, 4, 1, 5, 9, 2, 6] 1 6).1.drop ((6 : Int) + 1).toNat
      = ([3, 1, 4, 1, 5, 9, 2, 6] : List Int).drop ((6 : Int) + 1).toNat) :=
  ⟨by decide, by decide, by decide,
    partition_postcondition [3, 1, 4, 1, 5, 9, 2, 6] 1 6 (by decide) (by decide) (by decide)⟩

/-- C13 (insertion sort confined to its range), at the failing input.  The call
`insertionSort(arr, 3, 5)` on `[9, 8, 7, 3, 2, 1]` moves the cells of the range
down to the front of the array: the cells 0, 1 and 2 are overwritten, and the
range `[3, 5]` is left as `[8, 7, 3]`, which is not sorted. -/
theorem insertionSort_leaves_its_range :
    insertionSort [9, 8, 7, 3, 2, 1] 3 5 = [1, 2, 9, 8, 7, 3] ∧
    (insertionSort [9, 8, 7, 3, 2, 1] 3 5).take 3 ≠ ([9, 8, 7, 3, 2, 1] : List Int).take 3 ∧
    ¬ List.Sorted (· ≤ ·) ((insertionSort [9, 8, 7, 3, 2, 1] 3 5).drop 3) := by
  decide



/-! ## The groups of buckets -/

theorem groupLoop_tiles (bpt B : Int) (hbpt : 1 ≤ bpt)
    (hov : ((B - 1) / bpt + 1) * bpt ≤ INT_MAX) : ∀ (fuel : Nat) (start : Int),
    bpt ∣ start → 0 < fuel → B - start < (fuel : Int) →
    ∃ gs, groupLoop bpt B fuel start = .returns gs ∧
      (∀ g ∈ gs, start ≤ g.1 ∧ g.1 < g.2 ∧ g.2 ≤ B ∧ g.2 ≤ g.1 + bpt) ∧
      gs.Pairwise (fun g h => g.2 ≤ h.1) ∧
      (∀ i : Int, start ≤ i → i < B → ∃ g ∈ gs, g.1 ≤ i ∧ i < g.2)
  | 0, _, _, h, _ => by omega
  | fuel + 1, start, hd, _, hf => by
    rw [groupLoop]
    by_cases hlt : start < B
    · have hsum : ¬ start + bpt > INT_MAX := by
        have := group_sum_le hbpt hd hlt
        omega
      rw [if_pos hlt, if_neg hsum]
      obtain ⟨gs, g1, g2, g3, g4⟩ := groupLoop_tiles bpt B hbpt hov fuel (start + bpt)
        (dvd_add hd (dvd_refl _)) (by omega) (by push_cast at hf; omega)
      rw [g1]
      simp only [Outcome.bind]
      refine ⟨_, rfl, ?_, ?_, ?_⟩
      · intro g hg
        rcases List.mem_cons.mp hg with rfl | hg
        · simp only []
          split_ifs <;> omega
        · have := g2 g hg
          omega
      · rw [List.pairwise_cons]
        refine ⟨?_, g3⟩
        intro h hh
        have := g2 h hh
        simp only []
        split_ifs <;> omega
      · intro i hi1 hi2
        by_cases hc : i < start + bpt
        · refine ⟨_, List.mem_cons_self _ _, ?_⟩
          simp only []
          split_ifs <;> omega
        · obtain ⟨g, hg, hg1⟩ := g4 i (by omega) hi2
          exact ⟨g, List.mem_cons_of_mem _ hg, hg1⟩
    · rw [if_neg hlt]
      exact ⟨[], rfl, by simp, List.Pairwise.nil, fun i h1 h2 => by omega⟩

/-- C14 (the groups partition the index range) fails as stated: with
`B = 1431655767` buckets and `W = 2` execution units the group size is
`715827883`, the groups start at `0`, `715827883` and `1431655766`, and for the
third group the `int` sum `start + bucketsPerThread = 2147483649` exceeds
`INT_MAX`: the loop submits two groups and then runs into the signed overflow,
whatever the fuel beyond the three iterations. -/
theorem groups_third_sum_overflows :
    (1431655767 : Int) / ((2 : Nat) : Int) = 715827883 ∧
    (715827883 : Int) + 715827883 + 715827883 = INT_MAX + 2 ∧
    ∀ fuel : Nat,
      groupLoop ((1431655767 : Int) / ((2 : Nat) : Int)) 1431655767 (fuel + 3) 0 = .undefined := by
  have hb : (1431655767 : Int) / ((2 : Nat) : Int) = 715827883 := by decide
  refine ⟨hb, by decide, fun fuel => ?_⟩
  rw [hb]
  exact groupLoop_overflow 715827883 1431655767 (by decide) (by decide) (fuel + 3) 0
    (dvd_zero _) (by decide) (by push_cast; omega)

/-- C14 as amended.  For `B` buckets and a worker count `1 ≤ W ≤ B` (so `B ≥ 1`)
such that the first multiple of the group size `B / W` that is not below `B`
does not exceed `INT_MAX`, the group loop ends and submits half-open ranges that
are not empty, lie within `[0, B)`, come in ascending order without overlap, and
contain every bucket index exactly once. -/
theorem groups_partition_buckets (fuel processorCount : Nat) (B : Int)
    (hW1 : 1 ≤ processorCount) (hW2 : (processorCount : Int) ≤ B)
    (hov : ((B - 1) / (B / (processorCount : Int)) + 1) * (B / (processorCount : Int))
      ≤ INT_MAX)
    (hf : B < (fuel : Int)) :
    ∃ gs, groupLoop (B / (processorCount : Int)) B fuel 0 = .returns gs ∧
      (∀ g ∈ gs, 0 ≤ g.1 ∧ g.1 < g.2 ∧ g.2 ≤ B) ∧
      gs.Pairwise (fun g h => g.2 ≤ h.1) ∧
      (∀ i : Int, 0 ≤ i → i < B → ∃! g, g ∈ gs ∧ g.1 ≤ i ∧ i < g.2) := by
  have hbpt : 1 ≤ B / (processorCount : Int) := by
    rw [Int.le_ediv_iff_mul_le (by omega)]; omega
  obtain ⟨gs, g1, g2, g3, g4⟩ := groupLoop_tiles (B / (processorCount : Int)) B hbpt hov fuel 0
    (dvd_zero _) (by omega) (by omega)
  refine ⟨gs, g1, fun g hg => ⟨(g2 g hg).1, (g2 g hg).2.1, (g2 g hg).2.2.1⟩, g3, ?_⟩
  intro i hi1 hi2
  obtain ⟨g, hg, hgi⟩ := g4 i hi1 hi2
  refine ⟨g, ⟨hg, hgi⟩, ?_⟩
  rintro h ⟨hh, hhi⟩
  by_contra hne
  have hsym : gs.Pairwise (fun a b : Int × Int => a.2 ≤ b.1 ∨ b.2 ≤ a.1) :=
    g3.imp (fun hab => Or.inl hab)
  have := hsym.forall (fun a b hab => hab.symm) hh hg hne
  omega

/-- Instance of the amended C14: ten buckets on four execution units; the group
size is 2 and the sums are `2, 4, 6, 8, 10`. -/
theorem groups_partition_buckets_witness :
    1 ≤ 4 ∧ ((4 : Nat) : Int) ≤ 10 ∧
    (((10 : Int) - 1) / (10 / ((4 : Nat) : Int)) + 1) * (10 / ((4 : Nat) : Int)) ≤ INT_MAX ∧
    (10 : Int) < ((11 : Nat) : Int) ∧
    ∃ gs, groupLoop ((10 : Int) / ((4 : Nat) : Int)) 10 11 0 = .returns gs ∧
      (∀ g ∈ gs, 0 ≤ g.1 ∧ g.1 < g.2 ∧ g.2 ≤ 10) ∧
      gs.Pairwise (fun g h => g.2 ≤ h.1) ∧
      (∀ i : Int, 0 ≤ i → i < 10 → ∃! g, g ∈ gs ∧ g.1 ≤ i ∧ i < g.2) :=
  ⟨by decide, by decide, by decide, by decide,
    groups_partition_buckets 11 4 10 (by decide) (by decide) (by decide) (by decide)⟩

/-- C15 (group size), at the failing input.  With five buckets and two execution
units the group size is `5 / 2 = 2`, not `⌈5 / 2⌉ = 3`, and three groups are
submitted; with seven buckets and four execution units the group size is 1 and
seven groups are submitted. -/
theorem groups_five_buckets_two_workers :
    (5 : Int) / ((2 : Nat) : Int) = 2 ∧
    groupLoop ((5 : Int) / ((2 : Nat) : Int)) 5 6 0 = .returns [(0, 2), (2, 4), (4, 5)] ∧
    groupLoop ((7 : Int) / ((4 : Nat) : Int)) 7 8 0
      = .returns [(0, 1), (1, 2), (2, 3), (3, 4), (4, 5), (5, 6), (6, 7)] := by
  decide

/-! ## The bucket container, continued -/

theorem fold_push_back : ∀ (vs : List Int) (b : bucketADT), b.Valid →
    (vs.foldl bucketADT.push_back b).Valid ∧
      (vs.foldl bucketADT.push_back b).contents = b.contents ++ vs
  | [], b, hv => ⟨hv, by simp⟩
  | v :: vs, b, hv => by
    obtain ⟨h1, h2⟩ := fold_push_back vs (b.push_back v) (valid_push_back b v hv)
    rw [List.foldl_cons]
    refine ⟨h1, ?_⟩
    rw [h2, contents_push_back b v hv]; simp

/-- In a valid bucket the fixed array holds the first `elementsPerBucket` elements
and the overflow vector the others. -/
theorem valid_split (b : bucketADT) (hv : b.Valid) :
    b.internalSize = min b.contents.length elementsPerBucket ∧
    b.arr.take b.internalSize = b.contents.take elementsPerBucket ∧
    b.extension = b.contents.drop elementsPerBucket := by
  obtain ⟨h1, h2, h3⟩ := hv
  have hT : (b.arr.take b.internalSize).length = b.internalSize :=
    List.length_take_of_le (by omega)
  unfold bucketADT.contents
  rcases Nat.lt_or_ge b.internalSize elementsPerBucket with hlt | hge
  · rw [h3 hlt, List.append_nil, hT]
    refine ⟨by omega, ?_, ?_⟩
    · exact (List.take_of_length_le (by omega)).symm
    · exact (List.drop_of_length_le (by omega)).symm
  · have heq : b.internalSize = elementsPerBucket := by omega
    rw [heq] at hT ⊢
    refine ⟨by rw [List.length_append, hT]; omega, (List.take_left' hT).symm,
      (List.drop_left' hT).symm⟩

set_option maxRecDepth 100000 in
theorem elementsPerBucket_eq : numBuckets = 5000000 ∧ elementsPerBucket = 50 := by
  decide

/-- C16 (flatten returns the appended sequence).  Appending `v1, ..., vk` to a
fresh bucket and calling `convert()` returns `[v1, ..., vk]`: the used part of
the fixed array holds the first `elementsPerBucket` values, the overflow vector
the others, and `convert()` is the one followed by the other. -/
theorem convert_after_push_back (vs : List Int) :
    (vs.foldl bucketADT.push_back bucketADT.new).convert = vs ∧
    (vs.foldl bucketADT.push_back bucketADT.new).arr.take
        (vs.foldl bucketADT.push_back bucketADT.new).internalSize = vs.take elementsPerBucket ∧
    (vs.foldl bucketADT.push_back bucketADT.new).extension = vs.drop elementsPerBucket ∧
    (vs.foldl bucketADT.push_back bucketADT.new).convert
      = (vs.foldl bucketADT.push_back bucketADT.new).arr.take
          (vs.foldl bucketADT.push_back bucketADT.new).internalSize
        ++ (vs.foldl bucketADT.push_back bucketADT.new).extension := by
  obtain ⟨h1, h2⟩ := fold_push_back vs bucketADT.new valid_new
  rw [contents_new, List.nil_append] at h2
  obtain ⟨_, s2, s3⟩ := valid_split _ h1
  rw [h2] at s2 s3
  have hc := convert_eq_contents _ h1
  refine ⟨by rw [hc, h2], s2, s3, ?_⟩
  rw [hc]; rfl

set_option maxRecDepth 100000 in
/-- C19 (fixed-segment capacity) fails as stated: for the input `[0, 0, 0, 100]` and
two buckets, `len(input) / bucketCount` is 2, but the first bucket holds three
elements in its fixed array and nothing in its overflow vector. -/
theorem fixed_capacity_is_not_input_share :
    (([0, 0, 0, 100] : List Int).length : Int) / 2 = 2 ∧
    ((distribute 2 (minOf [0, 0, 0, 100]) (maxOf [0, 0, 0, 100]) [0, 0, 0, 100]
        (List.replicate (2 : Int).toNat bucketADT.new)).bind fun buckets =>
      .returns (buckets.map fun b => (b.internalSize, b.extension)))
      = .returns [(3, []), (1, [])] := by
  decide

/-- C19 as amended.  The fixed array of every bucket has the constant capacity
`elementsPerBucket = arrSize / numBuckets = 250000000 / 5000000 = 50`, whatever
the arguments of `bucketSort`: whenever the distribution loop returns, every
bucket has a fixed array of 50 cells that holds the first 50 elements appended to
it, and its overflow vector holds the elements appended after those; and a
fresh bucket to which the values `vs` are appended holds the first 50 of them in
its fixed array and the others in its overflow vector. -/
theorem fixed_capacity_is_constant (input : List Int) (B : Int) (buckets : List bucketADT)
    (h : distribute B (minOf input) (maxOf input) input
      (List.replicate B.toNat bucketADT.new) = .returns buckets) :
    elementsPerBucket = 50 ∧ arrSize / numBuckets = 50 ∧
    (∀ b ∈ buckets, b.arr.length = 50 ∧ b.internalSize = min b.contents.length 50 ∧
      b.arr.take b.internalSize = b.contents.take 50 ∧ b.extension = b.contents.drop 50) ∧
    ∀ vs : List Int,
      (vs.foldl bucketADT.push_back bucketADT.new).arr.length = 50 ∧
      (vs.foldl bucketADT.push_back bucketADT.new).internalSize = min vs.length 50 ∧
      (vs.foldl bucketADT.push_back bucketADT.new).arr.take
        (vs.foldl bucketADT.push_back bucketADT.new).internalSize = vs.take 50 ∧
      (vs.foldl bucketADT.push_back bucketADT.new).extension = vs.drop 50 := by
  obtain ⟨_, he⟩ := elementsPerBucket_eq
  refine ⟨he, he, ?_, ?_⟩
  · have hv0 : ∀ b ∈ List.replicate B.toNat bucketADT.new, b.Valid := by
      intro b hb
      rw [List.eq_of_mem_replicate hb]; exact valid_new
    obtain ⟨_, h3⟩ := distribute_valid B (minOf input) (maxOf input) input _ buckets hv0 h
    intro b hb
    obtain ⟨s1, s2, s3⟩ := valid_split b (h3 b hb)
    rw [he] at s1 s2 s3
    exact ⟨by rw [(h3 b hb).1, he], s1, s2, s3⟩
  · intro vs
    obtain ⟨h1, h2⟩ := fold_push_back vs bucketADT.new valid_new
    rw [contents_new, List.nil_append] at h2
    obtain ⟨s1, s2, s3⟩ := valid_split _ h1
    rw [h2, he] at s1 s2 s3
    exact ⟨by rw [h1.1, he], s1, s2, s3⟩

set_option maxRecDepth 100000 in
/-- Instance of the amended C19: sixty copies of one value and two other values,
with four buckets; the sixty copies go to bucket 1, fifty of them into its fixed
array and ten into its overflow vector. -/
theorem fixed_capacity_is_constant_witness :
    distribute 4 (minOf (List.replicate 60 2 ++ [9, -4]))
        (maxOf (List.replicate 60 2 ++ [9, -4])) (List.replicate 60 2 ++ [9, -4])
        (List.replicate (4 : Int).toNat bucketADT.new)
      = .returns [[-4].foldl bucketADT.push_back bucketADT.new,
          (List.replicate 60 2).foldl bucketADT.push_back bucketADT.new,
          bucketADT.new, [9].foldl bucketADT.push_back bucketADT.new] ∧
    ((List.replicate 60 (2 : Int)).foldl bucketADT.push_back bucketADT.new).internalSize = 50 ∧
    ((List.replicate 60 (2 : Int)).foldl bucketADT.push_back bucketADT.new).extension
      = List.replicate 10 2 ∧
    (elementsPerBucket = 50 ∧ arrSize / numBuckets = 50 ∧
    (∀ b ∈ [[-4].foldl bucketADT.push_back bucketADT.new,
        (List.replicate 60 2).foldl bucketADT.push_back bucketADT.new,
        bucketADT.new, [9].foldl bucketADT.push_back bucketADT.new],
      b.arr.length = 50 ∧ b.internalSize = min b.contents.length 50 ∧
      b.arr.take b.internalSize = b.contents.take 50 ∧ b.extension = b.contents.drop 50) ∧
    ∀ vs : List Int,
      (vs.foldl bucketADT.push_back bucketADT.new).arr.length = 50 ∧
      (vs.foldl bucketADT.push_back bucketADT.new).internalSize = min vs.length 50 ∧
      (vs.foldl bucketADT.push_back bucketADT.new).arr.take
        (vs.foldl bucketADT.push_back bucketADT.new).internalSize = vs.take 50 ∧
      (vs.foldl bucketADT.push_back bucketADT.new).extension = vs.drop 50) :=
  ⟨by decide, by decide, by decide,
    fixed_capacity_is_constant (List.replicate 60 2 ++ [9, -4]) 4 _ (by decide)⟩

/-! ## The call tree of the hybrid sorter -/

/-- Dropping the record of calls from `introSortTrace` gives `introSort`. -/
theorem introSortTrace_erase : ∀ (fuel : Nat) (arr : List Int) (start end_ depth : Int),
    (introSortTrace fuel arr start end_ depth).bind (fun r => .returns r.1)
      = introSort fuel arr start end_ depth
  | 0, _, _, _, _ => rfl
  | fuel + 1, arr, start, end_, depth => by
    rw [introSort, introSortTrace]
    by_cases c1 : end_ - start < insertionSortSize
    · rw [if_pos c1, if_pos c1]; rfl
    · rw [if_neg c1, if_neg c1]
      by_cases c2 : depth = maxDepth
      · rw [if_pos c2, if_pos c2]; rfl
      · rw [if_neg c2, if_neg c2]
        simp only []
        split_ifs with c3
        · rw [← introSortTrace_erase fuel (partition arr start end_).1 start
            ((partition arr start end_).2 - 1) (depth + 1)]
          cases h1 : introSortTrace fuel (partition arr start end_).1 start
              ((partition arr start end_).2 - 1) (depth + 1) with
          | returns r1 =>
            simp only [Outcome.bind]
            rw [← introSortTrace_erase fuel r1.1 ((partition arr start end_).2 + 1) end_
              (depth + 1)]
            cases h2 : introSortTrace fuel r1.1 ((partition arr start end_).2 + 1) end_
                (depth + 1) <;> rfl
          | badArrayNewLength => rfl
          | outOfBounds => rfl
          | outOfFuel => rfl
          | undefined => rfl
        · rw [← introSortTrace_erase fuel (partition arr start end_).1
            ((partition arr start end_).2 + 1) end_ (depth + 1)]
          cases h1 : introSortTrace fuel (partition arr start end_).1
              ((partition arr start end_).2 + 1) end_ (depth + 1) with
          | returns r1 =>
            simp only [Outcome.bind]
            rw [← introSortTrace_erase fuel r1.1 start ((partition arr start end_).2 - 1)
              (depth + 1)]
            cases h2 : introSortTrace fuel r1.1 start ((partition arr start end_).2 - 1)
                (depth + 1) <;> rfl
          | badArrayNewLength => rfl
          | outOfBounds => rfl
          | outOfFuel => rfl
          | undefined => rfl

/-- Every invocation in the call tree has a depth between the starting depth and
the cap. -/
theorem introSortTrace_depths : ∀ (fuel : Nat) (arr : List Int) (start end_ depth : Int)
    (out : List Int) (calls : List (Int × Int × Int)), depth ≤ maxDepth →
    introSortTrace fuel arr start end_ depth = .returns (out, calls) →
    ∀ c ∈ calls, depth ≤ c.2.2 ∧ c.2.2 ≤ maxDepth
  | 0, _, _, _, _, _, _, _, h => by simp [introSortTrace] at h
  | fuel + 1, arr, start, end_, depth, out, calls, hd, h => by
    rw [introSortTrace] at h
    by_cases c1 : end_ - start < insertionSortSize
    · rw [if_pos c1] at h
      have := Outcome.returns.inj h
      rw [← (Prod.mk.inj this).2]
      intro c hc
      simp at hc
      rw [hc]; exact ⟨le_refl _, hd⟩
    · rw [if_neg c1] at h
      by_cases c2 : depth = maxDepth
      · rw [if_pos c2] at h
        have := Outcome.returns.inj h
        rw [← (Prod.mk.inj this).2]
        intro c hc
        simp at hc
        rw [hc]; exact ⟨le_refl _, hd⟩
      · rw [if_neg c2] at h
        have hd1 : depth + 1 ≤ maxDepth := by omega
        simp only [] at h
        split_ifs at h with c3
        · obtain ⟨r1, h1, h⟩ := bind_eq_returns h
          obtain ⟨r2, h2, h⟩ := bind_eq_returns h
          have := Outcome.returns.inj h
          rw [← (Prod.mk.inj this).2]
          have i1 := introSortTrace_depths fuel _ _ _ _ r1.1 r1.2 hd1 h1
          have i2 := introSortTrace_depths fuel _ _ _ _ r2.1 r2.2 hd1 h2
          intro c hc
          rcases List.mem_cons.mp hc with rfl | hc
          · exact ⟨le_refl _, hd⟩
          · rcases List.mem_append.mp hc with hc | hc
            · have := i1 c hc; omega
            · have := i2 c hc; omega
        · obtain ⟨r1, h1, h⟩ := bind_eq_returns h
          obtain ⟨r2, h2, h⟩ := bind_eq_returns h
          have := Outcome.returns.inj h
          rw [← (Prod.mk.inj this).2]
          have i1 := introSortTrace_depths fuel _ _ _ _ r1.1 r1.2 hd1 h1
          have i2 := introSortTrace_depths fuel _ _ _ _ r2.1 r2.2 hd1 h2
          intro c hc
          rcases List.mem_cons.mp hc with rfl | hc
          · exact ⟨le_refl _, hd⟩
          · rcases List.mem_append.mp hc with hc | hc
            · have := i1 c hc; omega
            · have := i2 c hc; omega

/-- C17 (recursion depth is capped).  In the call tree of
`introSort(arr, start, end, 0)` every invocation has a depth between 0 and
`maxDepth = 55`, and an invocation at depth `maxDepth` makes no further call: its
call tree is the invocation itself, and it runs insertion sort or heap sort. -/
theorem recursion_depth_capped (fuel : Nat) (arr : List Int) (start end_ : Int)
    (hf : maxDepth < (fuel : Int)) :
    maxDepth = 55 ∧
    (∃ out calls, introSortTrace fuel arr start end_ 0 = .returns (out, calls) ∧
      introSort fuel arr start end_ 0 = .returns out ∧
      ∀ c ∈ calls, 0 ≤ c.2.2 ∧ c.2.2 ≤ maxDepth) ∧
    ∀ (arr1 : List Int) (s1 e1 : Int),
      introSortTrace fuel arr1 s1 e1 maxDepth
        = .returns (if e1 - s1 < insertionSortSize then insertionSort arr1 s1 e1
            else heapSort arr1 s1 e1, [(s1, e1, maxDepth)]) := by
  refine ⟨rfl, ?_, ?_⟩
  · obtain ⟨out, hout⟩ := introSort_returns fuel arr start end_ 0 (by decide) (by omega)
    have he := introSortTrace_erase fuel arr start end_ 0
    rw [hout] at he
    obtain ⟨r, hr1, hr2⟩ := bind_eq_returns he
    have hr3 : r.1 = out := Outcome.returns.inj hr2
    refine ⟨out, r.2, ?_, hout, ?_⟩
    · rw [hr1, ← hr3]
    · exact introSortTrace_depths fuel arr start end_ 0 r.1 r.2 (by decide) hr1
  · intro arr1 s1 e1
    obtain ⟨f, rfl⟩ : ∃ f, fuel = f + 1 := ⟨fuel - 1, by
      have : (0 : Int) < fuel := lt_of_le_of_lt (by decide) hf
      omega⟩
    rw [introSortTrace]
    split_ifs <;> first | rfl | contradiction

/-- Instance of C17: the decreasing array of 40 elements. -/
theorem recursion_depth_capped_witness :
    maxDepth < ((56 : Nat) : Int) ∧
    (maxDepth = 55 ∧
    (∃ out calls, introSortTrace 56 [40, 39, 38, 37, 36, 35, 34, 33, 32, 31, 30, 29, 28, 27, 26,
        25, 24, 23, 22, 21, 20, 19, 18, 17, 16, 15, 14, 13, 12, 11, 10, 9, 8, 7, 6, 5, 4, 3, 2, 1]
        0 39 0 = .returns (out, calls) ∧
      introSort 56 [40, 39, 38, 37, 36, 35, 34, 33, 32, 31, 30, 29, 28, 27, 26,
        25, 24, 23, 22, 21, 20, 19, 18, 17, 16, 15, 14, 13, 12, 11, 10, 9, 8, 7, 6, 5, 4, 3, 2, 1]
        0 39 0 = .returns out ∧
      ∀ c ∈ calls, 0 ≤ c.2.2 ∧ c.2.2 ≤ maxDepth) ∧
    ∀ (arr1 : List Int) (s1 e1 : Int),
      introSortTrace 56 arr1 s1 e1 maxDepth
        = .returns (if e1 - s1 < insertionSortSize then insertionSort arr1 s1 e1
            else heapSort arr1 s1 e1, [(s1, e1, maxDepth)])) :=
  ⟨by decide,
    recursion_depth_capped 56 [40, 39, 38, 37, 36, 35, 34, 33, 32, 31, 30, 29, 28, 27, 26,
        25, 24, 23, 22, 21, 20, 19, 18, 17, 16, 15, 14, 13, 12, 11, 10, 9, 8, 7, 6, 5, 4, 3, 2, 1]
      0 39 (by decide)⟩

/-- C18 (smaller side first), at the failing input.  On the 18 cells
`[1, ..., 9, 11, ..., 18, 10]` the pivot lands at index 9, so the left side
`[0, 8]` has 9 elements and the right side `[10, 17]` has 8; the test
`pivotIdx - 1 - start < end - pivotIdx + 1` reads `8 < 9`, and the first
recursive call is the one on the larger, left side. -/
theorem larger_side_sorted_first :
    (partition [1, 2, 3, 4, 5, 6, 7, 8, 9, 11, 12, 13, 14, 15, 16, 17, 18, 10] 0 17).2 = 9 ∧
    ((9 : Int) - 1 - 0 < 17 - 9 + 1) ∧ ((9 : Int) - 0 > 17 - 9) ∧
    introSortTrace 2 [1, 2, 3, 4, 5, 6, 7, 8, 9, 11, 12, 13, 14, 15, 16, 17, 18, 10] 0 17 0
      = .returns ([1, 2, 3, 4, 5, 6, 7, 8, 9, 10, 11, 12, 13, 14, 15, 16, 17, 18],
          [(0, 17, 0), (0, 8, 1), (10, 17, 1)]) := by
  decide

/-! ## Inputs whose elements are all equal -/

theorem minMax_all_equal {input : List Int} {c : Int} (hne : input ≠ [])
    (hall : ∀ v ∈ input, v = c) (hc : InIntRange c) :
    minOf input = c ∧ maxOf input = c + 1 := by
  have hr : ∀ v ∈ input, InIntRange v := fun v hv => by rw [hall v hv]; exact hc
  obtain ⟨hw, _, _, _, _, h5⟩ := minMax_facts hr
  obtain ⟨_, _, i3, i4, i5⟩ := minMaxLoop_spec input INT_MIN INT_MAX
  obtain ⟨v, hv⟩ := List.exists_mem_of_ne_nil input hne
  have hvc := hall v hv
  obtain ⟨b1, b2⟩ := i3 v hv
  obtain ⟨c1, c2⟩ := hc
  have hmx : (minMaxLoop input (INT_MIN, INT_MAX)).1 = c := by
    rcases i4 with h | h
    · rw [h] at b2 ⊢; omega
    · exact hall _ h
  have hmn : (minMaxLoop input (INT_MIN, INT_MAX)).2 = c := by
    rcases i5 with h | h
    · rw [h] at b1 ⊢; omega
    · exact hall _ h
  exact ⟨hmn, by rw [hw, hmx]⟩

theorem idxQ_zero (B b : ℚ) : idxQ B 0 b = 0 := by
  unfold idxQ
  have h0 : roundQ 0 = 0 := by unfold roundQ; simp
  rw [zero_div, h0, mul_zero, h0]
  simp

/-- C20 (all-equal input).  For a non-empty input whose elements all equal one
`int` value and a bucket count `1 ≤ B ≤ INT_MAX`, the divisor `max + 1 - min` is 1,
every element gets the index 0, after distribution bucket 0 holds the input and
the buckets `1..B-1` are empty, and `bucketSort` returns the input; the one
exception is a bucket count so large that a sum `start + bucketsPerThread` of the
group loop exceeds `INT_MAX`, where the call runs into that signed overflow. -/
theorem all_equal_input (fuel processorCount : Nat) (input : List Int) (c B : Int)
    (hne : input ≠ []) (hall : ∀ v ∈ input, v = c) (hc : InIntRange c)
    (hB1 : 1 ≤ B) (hB2 : B ≤ INT_MAX)
    (hW : processorCount = 0 ∨ (1 ≤ processorCount ∧ (processorCount : Int) ≤ B))
    (hf1 : maxDepth < (fuel : Int)) (hf2 : B < (fuel : Int)) :
    maxOf input - minOf input = 1 ∧ denominator (maxOf input) (minOf input) = 1 ∧
    (∀ v ∈ input, bucketIndex B v (minOf input) (maxOf input) = .returns 0) ∧
    (∃ buckets, distribute B (minOf input) (maxOf input) input
        (List.replicate B.toNat bucketADT.new) = .returns buckets ∧
      (buckets.length : Int) = B ∧
      ∀ (i : Nat) (b : bucketADT), buckets[i]? = some b →
        b.contents = if i = 0 then input else []) ∧
    bucketSort fuel processorCount input B
      = if processorCount = 0 ∨
          ((B - 1) / (B / (processorCount : Int)) + 1) * (B / (processorCount : Int)) ≤ INT_MAX
        then .returns input else .undefined := by
  have hr : ∀ v ∈ input, InIntRange v := fun v hv => by rw [hall v hv]; exact hc
  obtain ⟨hmn, hmx⟩ := minMax_all_equal hne hall hc
  have hn : maxOf input - minOf input < 2 ^ 31 := by rw [hmn, hmx]; omega
  have hidx : ∀ v ∈ input, bucketIndexValue B v (minOf input) (maxOf input) = 0 := by
    intro v hv
    obtain ⟨n1, n2, n3, n4, n5⟩ := numerator_facts hr hn hv
    have hB3 : B < 2 ^ 31 := by unfold INT_MAX at hB2; omega
    have e := bucketIndex_eq_idxQ n1 n2 n3 n4 n5 (by omega) hB3
    have hz : v - minOf input = 0 := by rw [hmn, hall v hv]; omega
    rw [hz] at e
    simp only [Int.cast_zero] at e
    rw [idxQ_zero] at e
    exact_mod_cast e
  have hsorted : input.insertionSort (· ≤ ·) = input := by
    apply List.Sorted.insertionSort_eq
    apply List.pairwise_of_forall_mem_list
    intro a ha b hb
    rw [hall a ha, hall b hb]
  refine ⟨by rw [hmn, hmx]; omega, ?_, ?_, ?_, ?_⟩
  · obtain ⟨v, hv⟩ := List.exists_mem_of_ne_nil input hne
    obtain ⟨_, n2, _⟩ := numerator_facts hr hn hv
    rw [n2, hmn, hmx]; omega
  · intro v hv
    rw [bucketIndex_returns hr hn hB1 hB2 hv, hidx v hv]
  · obtain ⟨bs1, h1, h2, _, h4, _⟩ := distribute_bucketSort hr hn hB1 hB2
    refine ⟨bs1, h1, h2, ?_⟩
    intro i b hb
    have hlt : i < bs1.length := by
      rcases Nat.lt_or_ge i bs1.length with h | h
      · exact h
      · rw [List.getElem?_eq_none h] at hb; simp at hb
    have e1 : (bs1.map bucketADT.contents)[i]? = some b.contents := by
      rw [List.getElem?_map, hb]; rfl
    rw [h4, List.getElem?_map, List.getElem?_range (by omega)] at e1
    have e2 : b.contents = input.filter
        (fun x => decide (bucketIndexValue B x (minOf input) (maxOf input) = i)) := by
      simpa using e1.symm
    rw [e2]
    split_ifs with hi
    · subst hi
      apply List.filter_eq_self.mpr
      intro v hv; simp [hidx v hv]
    · apply List.filter_eq_nil_iff.mpr
      intro v hv; simp [hidx v hv]; omega
  · split_ifs with hcase
    · have hW2 : processorCount = 0 ∨ (1 ≤ processorCount ∧ (processorCount : Int) ≤ B ∧
          ((B - 1) / (B / (processorCount : Int)) + 1) * (B / (processorCount : Int))
            ≤ INT_MAX) := by
        rcases hW with h0 | ⟨h1, h2⟩
        · exact Or.inl h0
        · rcases hcase with h0 | hov
          · exact Or.inl h0
          · exact Or.inr ⟨h1, h2, hov⟩
      rw [bucketSort_eq fuel processorCount input B hr hn hB1 hB2 hW2 hf1 hf2, hsorted]
    · have hW0 : ¬ processorCount = 0 := fun h0 => hcase (Or.inl h0)
      have hov : INT_MAX
          < ((B - 1) / (B / (processorCount : Int)) + 1) * (B / (processorCount : Int)) := by
        by_contra hle
        exact hcase (Or.inr (by omega))
      rcases hW with h0 | ⟨h1, h2⟩
      · exact absurd h0 hW0
      · exact bucketSort_overflow fuel processorCount input B hr hn hB1 hB2 h1 h2 hov hf2

/-- Instance of C20: thirty copies of 2 with four buckets on three execution
units; the group size is 1, the sums of the group loop are `1, 2, 3, 4`, and the
sort returns the thirty copies of 2. -/
theorem all_equal_input_witness :
    List.replicate 30 (2 : Int) ≠ [] ∧ (∀ v ∈ List.replicate 30 (2 : Int), v = 2) ∧
    InIntRange 2 ∧ (1 : Int) ≤ 4 ∧ (4 : Int) ≤ INT_MAX ∧
    (3 = 0 ∨ (1 ≤ 3 ∧ ((3 : Nat) : Int) ≤ 4)) ∧ maxDepth < ((57 : Nat) : Int) ∧
    (4 : Int) < ((57 : Nat) : Int) ∧
    (maxOf (List.replicate 30 2) - minOf (List.replicate 30 2) = 1 ∧
    denominator (maxOf (List.replicate 30 2)) (minOf (List.replicate 30 2)) = 1 ∧
    (∀ v ∈ List.replicate 30 (2 : Int),
      bucketIndex 4 v (minOf (List.replicate 30 2)) (maxOf (List.replicate 30 2))
        = .returns 0) ∧
    (∃ buckets, distribute 4 (minOf (List.replicate 30 2)) (maxOf (List.replicate 30 2))
        (List.replicate 30 2) (List.replicate (4 : Int).toNat bucketADT.new) = .returns buckets ∧
      (buckets.length : Int) = 4 ∧
      ∀ (i : Nat) (b : bucketADT), buckets[i]? = some b →
        b.contents = if i = 0 then List.replicate 30 2 else []) ∧
    bucketSort 57 3 (List.replicate 30 2) 4
      = if 3 = 0 ∨ (((4 : Int) - 1) / (4 / ((3 : Nat) : Int)) + 1) * (4 / ((3 : Nat) : Int))
          ≤ INT_MAX
        then .returns (List.replicate 30 2) else .undefined) ∧
    bucketSort 57 3 (List.replicate 30 2) 4 = .returns (List.replicate 30 2) :=
  ⟨by decide, by decide, by decide, by decide, by decide, by decide, by decide, by decide,
    all_equal_input 57 3 (List.replicate 30 2) 2 4 (by decide) (by decide) (by decide)
      (by decide) (by decide) (by decide) (by decide) (by decide),
    (all_equal_input 57 3 (List.replicate 30 2) 2 4 (by decide) (by decide) (by decide)
      (by decide) (by decide) (by decide) (by decide) (by decide)).2.2.2.2.trans
      (if_pos (by decide))⟩

end BucketSortThreaded
